import Mathlib

/-!
Verification of the `snippets` repository core algorithms:
the slug generator (`src/snippets/sdk/decorators/sluggen.py`) and the
snippet validator (`src/snippets/assets/snippets-validator.py`).

Python strings are embedded as `List Char`.  The embedding is faithful for
ASCII text (the scope in which the theorems below are stated): `str.lower`,
`str.isdigit`, `str.isalnum`, `str.strip`, `str.split` and the regular
expressions used by the source are modelled character by character, with
Python's exact semantics for the corner cases that matter here
(`re.sub` scanning order, lazy `(.*?)`, `$` before a trailing newline,
`str.rfind` returning -1, truthiness of an empty dict, and so on).
-/

namespace Snippets

/-- A Python string, embedded as a list of characters. -/
abbrev PyStr := List Char

/-- Build a `PyStr` from a Lean string literal. -/
def pstr (s : String) : PyStr := s.data

/-- ASCII lowercase letter (Python regex class `[a-z]`, code points 97-122). -/
def isLowerA (c : Char) : Bool := 97 ≤ c.toNat && c.toNat ≤ 122

/-- ASCII uppercase letter (Python regex class `[A-Z]`, code points 65-90). -/
def isUpperA (c : Char) : Bool := 65 ≤ c.toNat && c.toNat ≤ 90

/-- ASCII digit (Python regex class `[0-9]`, code points 48-57). -/
def isDigitA (c : Char) : Bool := 48 ≤ c.toNat && c.toNat ≤ 57

/-- Python `str.lower` on one character (ASCII scope); this is exactly
Lean core `Char.toLower`. -/
def pyLower (c : Char) : Char := c.toLower

/-- Python `str.upper` on one character (ASCII scope); this is exactly
Lean core `Char.toUpper`. -/
def pyUpper (c : Char) : Char := c.toUpper

/-- Characters matched by the regex class `\s` in `str` patterns (ASCII
scope: space, tab, newline, carriage return, vertical tab, form feed, and
the file/group/record/unit separators 0x1c-0x1f, which Python counts as
whitespace). -/
def pyWsRe (c : Char) : Bool :=
  c = ' ' || c = '\t' || c = '\n' || c = '\r' || c = Char.ofNat 11 || c = Char.ofNat 12 ||
    c = Char.ofNat 28 || c = Char.ofNat 29 || c = Char.ofNat 30 || c = Char.ofNat 31

/-- Characters stripped by `str.strip()` and split on by `str.split()`
(Python `str.isspace`); in ASCII scope this is the same set `\s` matches. -/
def pyIsSpace (c : Char) : Bool := pyWsRe c

/-- Python `str.isdigit` (ASCII scope): nonempty and all digits. -/
def pyIsDigitStr (w : PyStr) : Bool := !w.isEmpty && w.all isDigitA

/-- Python `str.isalnum` (ASCII scope): nonempty and all alphanumeric. -/
def pyIsAlnumStr (w : PyStr) : Bool :=
  !w.isEmpty && w.all (fun c => isLowerA c || isUpperA c || isDigitA c)

/-- `s.strip(chars)`: drop the characters satisfying `p` from both ends. -/
def stripChars (p : Char → Bool) (s : PyStr) : PyStr :=
  ((s.dropWhile p).reverse.dropWhile p).reverse

/-- `s.strip()` with no argument strips whitespace. -/
def pyStripWs (s : PyStr) : PyStr := stripChars pyIsSpace s

/-- `re.sub` over a one-character class with a constant replacement:
each character of the class is replaced by `rep`. -/
def subChars (cls : List Char) (rep : PyStr) (s : PyStr) : PyStr :=
  s.flatMap (fun c => if c ∈ cls then rep else [c])

/-- The scan behind `collapseRuns`; `inRun` records whether the previous
character satisfied `p`, so each maximal run emits `rep` exactly once. -/
def collapseRunsGo (p : Char → Bool) (rep : PyStr) (inRun : Bool) : PyStr → PyStr
  | [] => []
  | c :: rest =>
    if p c then (if inRun then [] else rep) ++ collapseRunsGo p rep true rest
    else c :: collapseRunsGo p rep false rest

/-- `re.sub(f"[{x}]+", x, s)` / `re.sub(r"\s+", " ", s)`: replace every
maximal run of characters satisfying `p` by the fixed string `rep`. -/
def collapseRuns (p : Char → Bool) (rep : PyStr) (s : PyStr) : PyStr :=
  collapseRunsGo p rep false s

/-- The scan behind `pySplit`; `acc` is the current word, reversed. -/
def pySplitGo (acc : PyStr) : PyStr → List PyStr
  | [] => if acc.isEmpty then [] else [acc.reverse]
  | c :: rest =>
    if pyIsSpace c then
      (if acc.isEmpty then [] else [acc.reverse]) ++ pySplitGo [] rest
    else pySplitGo (c :: acc) rest

/-- Python `str.split()` with no separator: split on whitespace runs,
returning no empty words. -/
def pySplit (s : PyStr) : List PyStr := pySplitGo [] s

/-- `sep.join(words)` for a one-character separator. -/
def joinSep (sep : Char) : List PyStr → PyStr
  | [] => []
  | [w] => w
  | w :: ws => w ++ sep :: joinSep sep ws

/-- `s.rfind(c)` for a one-character needle: index of the last occurrence,
`none` when absent (Python returns -1). -/
def rfindChar (s : PyStr) (c : Char) : Option Nat :=
  match s.reverse.findIdx? (· = c) with
  | some j => some (s.length - 1 - j)
  | none => none

/-- `str.replace(old, new)`: replace all non-overlapping occurrences,
scanning left to right (`old ≠ ""` case). -/
def replaceGo (s old new : PyStr) : PyStr :=
  match s with
  | [] => []
  | c :: rest =>
    if h : old ≠ [] ∧ old.isPrefixOf (c :: rest) then
      new ++ replaceGo ((c :: rest).drop old.length) old new
    else c :: replaceGo rest old new
termination_by s.length
decreasing_by
  · rcases h with ⟨hne, _⟩
    simp only [List.length_cons, List.length_drop]
    have : 1 ≤ old.length := by
      cases old with
      | nil => exact absurd rfl hne
      | cons a l => simp
    omega
  · simp

/-- Python `str.replace(old, new)`; an empty `old` inserts `new`
around every character. -/
def pyReplace (s old new : PyStr) : PyStr :=
  if old = [] then new ++ s.flatMap (fun c => c :: new)
  else replaceGo s old new

/-- Decimal digits of a natural number, as Python's `str(i)` renders it. -/
def natDigits (n : Nat) : PyStr := (toString n).data

/-! ## The slug generator (`sluggen.py`) -/

/-- The stop-word set built in `SlugGenerator.__init__`. -/
def defaultStopWords : List PyStr :=
  [pstr "a", pstr "an", pstr "and", pstr "are", pstr "as", pstr "at",
   pstr "be", pstr "by", pstr "for", pstr "from", pstr "has", pstr "he",
   pstr "in", pstr "is", pstr "it", pstr "its", pstr "of", pstr "on",
   pstr "that", pstr "the", pstr "to", pstr "was", pstr "will", pstr "with"]

/-- The configuration held by a `SlugGenerator` instance.  The source
stores the separator as a string; every use in the repository (and every
claim) has a single character, which is what this model covers. -/
structure SlugGenerator where
  max_length : Nat := 50
  word_separator : Char := '-'
  stop_words : List PyStr := defaultStopWords

/-- `unicodedata.normalize("NFKD", ...)` restricted to ASCII, where every
character decomposes to itself. -/
def nfkd (c : Char) : List Char := [c]

/-- `unicodedata.combining` restricted to ASCII, where no character is a
combining mark. -/
def combining (_ : Char) : Bool := false

/-- `SlugGenerator.remove_accents` (ASCII scope). -/
def remove_accents (s : PyStr) : PyStr :=
  (s.flatMap nfkd).filter (fun c => !combining c)

/-- The class of `re.sub(r"[&+@#%]", " and ", text)`. -/
def andClass : List Char := ['&', '+', '@', '#', '%']

/-- The class of `re.sub(r'[.,;:!?()[\]{}"\']', " ", text)`
(punctuation; the braces and apostrophe are spelled via their codes). -/
def punctClass : List Char :=
  ['.', ',', ';', ':', '!', '?', '(', ')', '[', ']',
   Char.ofNat 123, Char.ofNat 125, Char.ofNat 34, Char.ofNat 39]

/-- The class of `re.sub(r"[/\\|]", " ", text)`. -/
def slashClass : List Char := ['/', '\\', '|']

/-- `re.sub(r"([a-z])([A-Z])", r"\1 \2", text)`: insert a space between a
lowercase letter and the uppercase letter right after it, scanning
non-overlapping matches left to right. -/
def camelSplit : PyStr → PyStr
  | [] => []
  | [c] => [c]
  | a :: b :: rest =>
    if isLowerA a && isUpperA b then a :: ' ' :: b :: camelSplit rest
    else a :: camelSplit (b :: rest)

/-- The scan behind `numSpace`; `inD` records whether the previous
character was a digit, so each maximal run is wrapped exactly once. -/
def numSpaceGo (inD : Bool) : PyStr → PyStr
  | [] => if inD then [' '] else []
  | c :: rest =>
    if isDigitA c then (if inD then [] else [' ']) ++ c :: numSpaceGo true rest
    else (if inD then [' '] else []) ++ c :: numSpaceGo false rest

/-- `re.sub(r"([0-9]+)", r" \1 ", text)`: wrap every maximal digit run in
spaces. -/
def numSpace (s : PyStr) : PyStr := numSpaceGo false s

/-- `SlugGenerator.clean_text`. -/
def clean_text (text : PyStr) : PyStr :=
  if text = [] then []
  else
    let t1 := text.map pyLower
    let t2 := remove_accents t1
    let t3 := subChars andClass (pstr " and ") t2
    let t4 := subChars punctClass (pstr " ") t3
    let t5 := subChars slashClass (pstr " ") t4
    let t6 := camelSplit t5
    let t7 := numSpace t6
    pyStripWs (collapseRuns pyWsRe (pstr " ") t7)

/-- One step of the filtering loop in `SlugGenerator.filter_words`:
`true` when the word is appended to `filtered_words`. -/
def keepWord (g : SlugGenerator) (remove_stop_words : Bool) (word : PyStr) : Bool :=
  if word.isEmpty then false
  else if word.length = 1 && !pyIsDigitStr word then false
  else if remove_stop_words && decide ((word.map pyLower) ∈ g.stop_words) then false
  else pyIsAlnumStr word || word.contains '-' || word.contains '_'

/-- `SlugGenerator.filter_words`. -/
def SlugGenerator.filter_words (g : SlugGenerator) (words : List PyStr)
    (remove_stop_words : Bool := false) : List PyStr :=
  words.filter (keepWord g remove_stop_words)

/-- `SlugGenerator.truncate_slug`. -/
def SlugGenerator.truncate_slug (g : SlugGenerator) (slug : PyStr) : PyStr :=
  if slug.length ≤ g.max_length then slug
  else
    let truncated := slug.take g.max_length
    match rfindChar truncated g.word_separator with
    | some i => if 0 < i then truncated.take i else truncated
    | none => truncated

/-- The regex class kept by `re.sub(r"[^a-zA-Z0-9\-_]", "", slug)`. -/
def slugKeepChar (c : Char) : Bool :=
  isLowerA c || isUpperA c || isDigitA c || c = '-' || c = '_'

/-- `re.sub(r"[^a-zA-Z0-9\-_]", "", slug)`. -/
def stripJunk (s : PyStr) : PyStr := s.filter slugKeepChar

/-- Whether `re.sub` raises `re.error` while parsing its replacement
string, for a pattern with no groups (the separator collapse uses
`f"[{re.escape(sep)}]+"`, which `re.escape` makes a valid no-group
pattern for every separator).  Python parses the replacement as a
template: a lone trailing backslash is `bad escape (end of pattern)`;
a backslash before an ASCII letter must be one of the known escapes
`\a \b \f \n \r \t \v`; `\g` and the group references `\1`-`\9` are
invalid for a pattern with no groups (`\0` is the octal escape for NUL);
a backslash before any other character, and every bare character, is
literal.  In particular the one-character replacement `sep` itself
raises exactly when `sep` is the backslash. -/
def replRaises : PyStr → Bool
  | [] => false
  | ['\\'] => true
  | '\\' :: d :: rest =>
    (if isLowerA d || isUpperA d then !(d ∈ ['a', 'b', 'f', 'n', 'r', 't', 'v'])
     else if isDigitA d then !(d = '0')
     else false) || replRaises rest
  | _ :: rest => replRaises rest

/-- Application of `custom_replacements` in mapping order
(`text.replace(old, new)` for each pair). -/
def preparedText (title : PyStr) (custom_replacements : List (PyStr × PyStr)) : PyStr :=
  custom_replacements.foldl (fun t p => pyReplace t p.1 p.2) title

/-- Lines 144-151 of `generate_slug`: clean, split and filter the title. -/
def slugWords (g : SlugGenerator) (text : PyStr) (remove_stop_words : Bool) : List PyStr :=
  g.filter_words (pySplit (clean_text text)) remove_stop_words

/-- Lines 157-174 of `generate_slug`: join the filtered words, drop invalid
characters, collapse and trim separators, truncate, and trim again. -/
def finalSlug (g : SlugGenerator) (filtered_words : List PyStr) : PyStr :=
  let slug1 := joinSep g.word_separator filtered_words
  let slug2 := stripJunk slug1
  let slug3 := collapseRuns (fun c => c = g.word_separator) [g.word_separator] slug2
  let slug4 := stripChars (fun c => c = g.word_separator) slug3
  let slug5 := g.truncate_slug slug4
  stripChars (fun c => c = g.word_separator) slug5

/-- `SlugGenerator.generate_slug`. -/
def SlugGenerator.generate_slug (g : SlugGenerator) (title : PyStr)
    (remove_stop_words : Bool := true)
    (custom_replacements : List (PyStr × PyStr) := []) : PyStr :=
  if title = [] ∨ pyStripWs title = [] then pstr "untitled"
  else
    let filtered := slugWords g (preparedText title custom_replacements) remove_stop_words
    if filtered = [] then pstr "untitled"
    else if finalSlug g filtered = [] then pstr "untitled"
    else finalSlug g filtered

/-- `f"{base_slug}{self.word_separator}{i}"`. -/
def candidateSlug (g : SlugGenerator) (base : PyStr) (i : Nat) : PyStr :=
  base ++ g.word_separator :: natDigits i

/-- `str(int(time.time()))[-6:]`: the last six decimal digits of the
current Unix time, passed in explicitly as `now`. -/
def lastSixDigits (now : Nat) : PyStr :=
  (natDigits now).drop ((natDigits now).length - 6)

/-- `SlugGenerator.generate_unique_slug`; the clock read in the fallback
branch is the explicit argument `now`. -/
def SlugGenerator.generate_unique_slug (g : SlugGenerator) (title : PyStr)
    (existing_slugs : List PyStr) (max_attempts : Nat) (now : Nat) : PyStr :=
  let base_slug := g.generate_slug title
  if base_slug ∈ existing_slugs then
    match (List.range' 2 max_attempts).find?
        (fun i => decide (candidateSlug g base_slug i ∉ existing_slugs)) with
    | some i => candidateSlug g base_slug i
    | none => base_slug ++ g.word_separator :: lastSixDigits now
  else base_slug

/-! ## The snippet validator (`snippets-validator.py`) -/

/-- `\s*$` with `re.MULTILINE`: from here, some run of whitespace reaches
the end of the input or a newline. -/
def dollarTail (t : PyStr) : Bool :=
  let run := t.takeWhile pyWsRe
  run.contains '\n' || run.length = t.length

/-- Whether `\n---\s*$` matches at this position. -/
def isCloseHere (t : PyStr) : Bool :=
  match t with
  | '\n' :: '-' :: '-' :: '-' :: rest => dollarTail rest
  | _ => false

/-- The lazy group `(.*?)` followed by `\n---\s*$`: accumulate characters
until the closing delimiter matches, preferring the shortest group. -/
def scanClose (acc : PyStr) : PyStr → Option PyStr
  | [] => none
  | c :: cs =>
    if isCloseHere (c :: cs) then some acc.reverse
    else scanClose (c :: acc) cs

/-- Backtracking of the greedy `\s*` in `^---\s*\n`: the candidate newline
positions inside the maximal whitespace run after `---`, longest
consumption first. -/
def fmCandidates (rest : PyStr) : List Nat :=
  let run := rest.takeWhile pyWsRe
  ((List.range run.length).filter (fun i => run.getD i ' ' = '\n')).reverse

/-- `extract_frontmatter`: `re.match(r"^---\s*\n(.*?)\n---\s*$", content,
re.MULTILINE | re.DOTALL)` guarded by `content.startswith("---")`. -/
def extract_frontmatter (content : PyStr) : Option PyStr :=
  match content with
  | '-' :: '-' :: '-' :: rest =>
    (fmCandidates rest).findSome? (fun i => scanClose [] (rest.drop (i + 1)))
  | _ => none

/-- One character of the class `[0-9A-HJKMNP-TV-Z]` under `re.IGNORECASE`
(Crockford base32: digits and letters excluding I, L, O, U). -/
def crockChar (c : Char) : Bool :=
  let u := pyUpper c
  isDigitA u || ('A' ≤ u && u ≤ 'H') || u = 'J' || u = 'K' || u = 'M' || u = 'N' ||
    ('P' ≤ u && u ≤ 'T') || ('V' ≤ u && u ≤ 'Z')

/-- Consume exactly `n` characters satisfying `p`, returning the rest. -/
def matchRep (p : Char → Bool) : Nat → PyStr → Option PyStr
  | 0, t => some t
  | _ + 1, [] => none
  | n + 1, c :: cs => if p c then matchRep p n cs else none

/-- `$` without `re.MULTILINE`: end of input, or just before a newline at
the end of input. -/
def dollarEnd (t : PyStr) : Bool := t = [] || t = ['\n']

/-- `validate_ulid_format`: `re.match(r"^[0-9A-HJKMNP-TV-Z]{26}$",
ulid_str, re.IGNORECASE)` turned into a Bool. -/
def validate_ulid_format (ulid_str : PyStr) : Bool :=
  match matchRep crockChar 26 ulid_str with
  | some t => dollarEnd t
  | none => false

/-- A single quote character, used by the validator's f-strings. -/
def sq : Char := Char.ofNat 39

/-- `f"Filename {name!r} does not follow <ulid>.md format (invalid ULID)"`
with the name quoted as in the source f-string. -/
def ulidErrMsg (name : PyStr) : PyStr :=
  pstr "Filename " ++ sq :: name ++ sq :: pstr " does not follow <ulid>.md format (invalid ULID)"

/-- The missing-id error string of `validate_markdown_file`. -/
def missingIdMsg : PyStr :=
  pstr "Missing " ++ sq :: pstr "id" ++ sq :: pstr " field in frontmatter"

/-- Python's rendering of `frontmatter.get("id")` inside the mismatch
f-string (`None` when absent, which cannot occur in the branch that
formats it). -/
def idRender : Option PyStr → PyStr
  | none => pstr "None"
  | some v => v

/-- The mismatch error string of `validate_markdown_file`. -/
def mismatchMsg (stem : PyStr) (idv : Option PyStr) : PyStr :=
  pstr "ULID mismatch: filename has " ++ sq :: stem ++ sq ::
    pstr " but frontmatter id is " ++ sq :: idRender idv ++ [sq]

/-- Front matter parsed by `yaml.safe_load`, abstracted to an association
list of string keys and string values; `none` models YAML `null`
(an empty frontmatter block). -/
abbrev Frontmatter := List (PyStr × PyStr)

/-- Python truthiness of the parsed frontmatter (`if frontmatter and ...`):
`None` and the empty dict are falsy. -/
def fmTruthy : Option Frontmatter → Bool
  | none => false
  | some m => !m.isEmpty

/-- `frontmatter.get("id")` / `"id" not in frontmatter`. -/
def lookupId (fm : Option Frontmatter) : Option PyStr :=
  ((fm.getD []).find? (fun p => p.1 = pstr "id")).map (·.2)

/-- Lines 90-114 of `validate_markdown_file`: the error list accumulated
after the frontmatter has been extracted and parsed.  The `jsonschema`
library call is abstracted by the `schema_errors` it contributes. -/
def validate_checks (frontmatter : Option Frontmatter) (filename_stem filename : PyStr)
    (schema_errors : List PyStr) : List PyStr :=
  let e1 := schema_errors
  let e2 := if validate_ulid_format filename_stem then e1 else e1 ++ [ulidErrMsg filename]
  if fmTruthy frontmatter && (lookupId frontmatter).isNone then
    e2 ++ [missingIdMsg]
  else if fmTruthy frontmatter && !(lookupId frontmatter == some filename_stem) then
    e2 ++ [mismatchMsg filename_stem (lookupId frontmatter)]
  else e2

/-! ## Predicates used to state the claims -/

/-- Characters a default-configuration slug may contain:
lowercase ASCII letters, digits, the hyphen separator, underscore. -/
def slugChar (c : Char) : Bool := isLowerA c || isDigitA c || c = '-' || c = '_'

/-- No two adjacent occurrences of the separator character. -/
def noDoubleSep (sep : Char) : PyStr → Bool
  | [] => true
  | [_] => true
  | a :: b :: rest => !(a = sep && b = sep) && noDoubleSep sep (b :: rest)

/-- The closing delimiter `\n---\s*$` matches nowhere strictly inside `A`
(when `A` is followed by `tail`). -/
def noCloseWithin (A tail : PyStr) : Prop :=
  ∀ n, n < A.length → isCloseHere (List.drop n (A ++ tail)) = false

/-- No digit sits directly against a letter or underscore: wherever a digit
run meets a non-digit, the non-digit side is the separator `-`. -/
def adjPair (a b : Char) : Bool :=
  !(isDigitA a && !isDigitA b && !(b = '-')) && !(!isDigitA a && !(a = '-') && isDigitA b)

/-- `adjPair` holds for every two adjacent characters. -/
def adjOK : PyStr → Bool
  | [] => true
  | [_] => true
  | a :: b :: rest => adjPair a b && adjOK (b :: rest)

/-- Whole-string conditions for a canonical slug: a digit-free slug must be
a single surviving word — at least two characters and not a stop word. -/
def wordsOK (s : PyStr) : Bool :=
  if s.all (fun c => !isDigitA c) then
    (2 ≤ s.length) && !(decide (s ∈ defaultStopWords))
  else true

/-- A slug in canonical form: non-empty, within the default `max_length`,
over the alphabet `[a-z0-9_-]`, with no doubled and no leading or
trailing separator, digit runs delimited by separators, and — when the
slug has no digits — a single keepable word.  On such strings
`generate_slug` acts as the identity. -/
def canonicalSlug (s : PyStr) : Bool :=
  !s.isEmpty && s.length ≤ 50 && s.all slugChar &&
    !(s.head? == some '-') && !(s.getLast? == some '-') &&
    noDoubleSep '-' s && adjOK s && wordsOK s

/-- The separator-collapse step of `generate_slug` for the default
separator, as a standalone scan. -/
def collapseSep (x : PyStr) : PyStr :=
  collapseRunsGo (fun c => decide (c = '-')) ['-'] false x

/-- Split, filter and re-join a string, then collapse separators: the part
of the `generate_slug` round trip that the canonical-form induction is
about. -/
def slugRound (s : PyStr) : PyStr :=
  collapseSep (joinSep '-' ((pySplit (numSpace s)).filter (keepWord {} true)))

/-- The inductive invariant behind `canonicalSlug`: the side conditions a
suffix of a canonical slug satisfies while the round-trip induction peels
leading digit and word blocks. -/
def canonCore (s : PyStr) : Prop :=
  s ≠ [] ∧ (∀ c ∈ s, slugChar c = true) ∧ noDoubleSep '-' s = true ∧
    adjOK s = true ∧ s.getLast? ≠ some '-' ∧
    (s.head? = some '-' → ∀ c2, s.tail.head? = some c2 → isDigitA c2 = false) ∧
    (s.all (fun c => !isDigitA c) = true → keepWord {} true s = true)

/-! ## Supporting lemmas -/

theorem toNat_ofNatAux (n : Nat) (h : n.isValidChar) : (Char.ofNatAux n h).toNat = n := by
  simp only [Char.ofNatAux, Char.toNat, UInt32.toNat]
  simp

theorem toLower_toNat (c : Char) :
    c.toLower.toNat = if 65 ≤ c.toNat ∧ c.toNat ≤ 90 then c.toNat + 32 else c.toNat := by
  unfold Char.toLower
  dsimp only
  by_cases h : c.toNat ≥ 65 ∧ c.toNat ≤ 90
  · have hval : (c.toNat + 32).isValidChar := Or.inl (by omega)
    rw [if_pos h, if_pos (by omega)]
    unfold Char.ofNat
    rw [dif_pos hval, toNat_ofNatAux]
  · rw [if_neg h, if_neg (by omega)]

theorem isUpperA_pyLower (c : Char) : isUpperA (pyLower c) = false := by
  simp only [isUpperA, pyLower, toLower_toNat]
  split <;> rename_i h <;> simp <;> omega

theorem length_stripChars_le (p : Char → Bool) (s : PyStr) :
    (stripChars p s).length ≤ s.length := by
  simp only [stripChars, List.length_reverse]
  calc ((s.dropWhile p).reverse.dropWhile p).length
      ≤ (s.dropWhile p).reverse.length := (List.dropWhile_sublist _).length_le
    _ = (s.dropWhile p).length := List.length_reverse _
    _ ≤ s.length := (List.dropWhile_sublist _).length_le

theorem length_truncate_le (g : SlugGenerator) (s : PyStr) :
    (g.truncate_slug s).length ≤ g.max_length := by
  unfold SlugGenerator.truncate_slug
  split
  · assumption
  · dsimp only
    split
    · split
      · simp only [List.length_take]; omega
      · simp only [List.length_take]; omega
    · simp only [List.length_take]; omega

theorem find?_range'_first {p : Nat → Bool} :
    ∀ (n s j : Nat), s ≤ j → j < s + n → p j = true →
    (∀ k, s ≤ k → k < j → p k = false) → (List.range' s n).find? p = some j := by
  intro n
  induction n with
  | zero => intro s j h1 h2 _ _; omega
  | succ n ih =>
    intro s j h1 h2 h3 h4
    rw [List.range'_succ]
    by_cases hs : j = s
    · subst hs
      rw [List.find?_cons_of_pos _ h3]
    · have hps : p s = false := h4 s (Nat.le_refl s) (by omega)
      rw [List.find?_cons_of_neg _ (by simp [hps])]
      exact ih (s + 1) j (by omega) (by omega) h3 (fun k hk1 hk2 => h4 k (by omega) hk2)

theorem scanClose_through (T : PyStr) (hT : isCloseHere T = true) :
    ∀ (A acc : PyStr), (∀ n, n < A.length → isCloseHere (List.drop n (A ++ T)) = false) →
    scanClose acc (A ++ T) = some (acc.reverse ++ A) := by
  intro A
  induction A with
  | nil =>
    intro acc _
    cases T with
    | nil => simp [isCloseHere] at hT
    | cons c cs =>
      simp only [List.nil_append, scanClose, hT, if_true, List.append_nil]
  | cons a A2 ih =>
    intro acc h
    have h0 : isCloseHere (a :: (A2 ++ T)) = false := by
      have := h 0 (by simp)
      rw [List.drop_zero] at this
      exact this
    show scanClose acc (a :: (A2 ++ T)) = some (acc.reverse ++ (a :: A2))
    rw [scanClose, if_neg (by rw [h0]; exact Bool.false_ne_true)]
    rw [ih (a :: acc) ?_]
    · simp
    · intro n hn
      have := h (n + 1) (by simp only [List.length_cons]; omega)
      simpa using this

theorem ulid_msg_split (name : PyStr) : ulidErrMsg name =
    (pstr "Filename " ++ sq :: name ++ sq :: pstr " does not follow ") ++
      pstr "<ulid>.md" ++ pstr " format (invalid ULID)" := by
  unfold ulidErrMsg
  have h : pstr " does not follow <ulid>.md format (invalid ULID)" =
      pstr " does not follow " ++ pstr "<ulid>.md" ++ pstr " format (invalid ULID)" := by
    decide
  rw [h]
  simp [List.append_assoc]

theorem matchRep_eq_some (p : Char → Bool) :
    ∀ (n : Nat) (s t : PyStr), matchRep p n s = some t ↔
      (n ≤ s.length ∧ (s.take n).all p = true ∧ t = s.drop n) := by
  intro n
  induction n with
  | zero =>
    intro s t
    simp only [matchRep, Option.some_inj, List.take_zero, List.all_nil, List.drop_zero,
      Nat.zero_le, true_and]
    exact eq_comm
  | succ n ih =>
    intro s t
    cases s with
    | nil => simp [matchRep]
    | cons c cs =>
      simp only [matchRep]
      by_cases h : p c = true
      · rw [if_pos h, ih]
        simp only [List.length_cons, List.take_succ_cons, List.all_cons, h, Bool.true_and,
          List.drop_succ_cons]
        constructor
        · intro ⟨h1, h2, h3⟩; exact ⟨by omega, h2, h3⟩
        · intro ⟨h1, h2, h3⟩; exact ⟨by omega, h2, h3⟩
      · rw [if_neg h]
        simp only [List.take_succ_cons, List.all_cons]
        constructor
        · intro hf; cases hf
        · intro ⟨_, hall, _⟩
          rw [Bool.and_eq_true] at hall
          exact absurd hall.1 h

/-! ## Claims -/

/-- C2, counterexample: with the positive `max_length` 3, the empty title
yields the sentinel `"untitled"`, whose length 8 exceeds `max_length`. -/
theorem c2_counterexample :
    0 < ({max_length := 3} : SlugGenerator).max_length ∧
    SlugGenerator.generate_slug {max_length := 3} (pstr "") = pstr "untitled" ∧
    ¬(SlugGenerator.generate_slug {max_length := 3} (pstr "")).length ≤
      ({max_length := 3} : SlugGenerator).max_length := by
  refine ⟨by decide, by decide, by decide⟩

/-- C2, amended: for every generator and title, the slug either is the
sentinel `"untitled"` (length 8, which can exceed a small `max_length`)
or has length at most `max_length`. -/
theorem c2_amended (g : SlugGenerator) (title : PyStr) (rsw : Bool)
    (cr : List (PyStr × PyStr)) :
    g.generate_slug title rsw cr = pstr "untitled" ∨
    (g.generate_slug title rsw cr).length ≤ g.max_length := by
  unfold SlugGenerator.generate_slug
  split
  · exact Or.inl rfl
  · dsimp only
    split
    · exact Or.inl rfl
    · split
      · exact Or.inl rfl
      · refine Or.inr ?_
        unfold finalSlug
        exact le_trans (length_stripChars_le _ _) (length_truncate_le g _)

/-- C3, counterexample: on content with two closing candidate lines the
extraction returns the block closed by the first `---` line (`"a"`), not
the block closed by the last one (`"a\n---\nb"`): the group `(.*?)` is
lazy, not greedy. -/
theorem c3_counterexample :
    extract_frontmatter (pstr "---\na\n---\nb\n---\n") = some (pstr "a") ∧
    some (pstr "a") ≠ some (pstr "a\n---\nb") := by
  refine ⟨by decide, by decide⟩

/-- C3, amended: for content of the form `---\n A \n---\n B`, where the
block `A` starts with a non-whitespace character and the closing
delimiter pattern matches nowhere inside `A`, extraction returns exactly
`A` — the block closed by the *first* standalone `---` line — no matter
how many further `---` lines `B` contains. -/
theorem c3_amended (A B : PyStr) (a : Char) (A2 : PyStr) (hA : A = a :: A2)
    (ha : pyWsRe a = false)
    (hno : noCloseWithin A ('\n' :: (pstr "---" ++ '\n' :: B))) :
    extract_frontmatter (pstr "---" ++ '\n' :: (A ++ '\n' :: (pstr "---" ++ '\n' :: B))) =
      some A := by
  subst hA
  set T : PyStr := '\n' :: (pstr "---" ++ '\n' :: B) with hT
  have hclose : isCloseHere T = true := by
    rw [hT]
    show isCloseHere ('\n' :: ('-' :: '-' :: '-' :: []) ++ '\n' :: B) = true
    simp only [List.cons_append, List.nil_append, isCloseHere, dollarTail]
    have : pyWsRe '\n' = true := by decide
    rw [List.takeWhile_cons, if_pos this]
    simp
  show extract_frontmatter ('-' :: '-' :: '-' :: ('\n' :: (a :: A2 ++ T))) = some (a :: A2)
  rw [extract_frontmatter]
  have hrun : (('\n' :: (a :: A2 ++ T)).takeWhile pyWsRe) = ['\n'] := by
    rw [List.takeWhile_cons, if_pos (by decide)]
    show '\n' :: ((a :: (A2 ++ T)).takeWhile pyWsRe) = ['\n']
    rw [List.takeWhile_cons, if_neg (by rw [ha]; exact Bool.false_ne_true)]
  have hcand : fmCandidates ('\n' :: (a :: A2 ++ T)) = [0] := by
    unfold fmCandidates
    rw [hrun]
    decide
  rw [hcand]
  simp only [List.findSome?_cons, List.drop_succ_cons, List.drop_zero]
  have := scanClose_through T hclose (a :: A2) [] hno
  rw [show (a :: A2) ++ T = a :: A2 ++ T from rfl] at this
  rw [this]
  simp

/-- C4, counterexample: a frontmatter block parsing to the *empty* mapping
(`{}` is falsy in Python) produces no missing-id error at all, although
the mapping has no `id` key; with a well-formed ULID stem the validator
returns no errors. -/
theorem c4_counterexample :
    extract_frontmatter (pstr "---\n\x7b\x7d\n---") = some (pstr "\x7b\x7d") ∧
    lookupId (some []) = none ∧
    validate_checks (some []) (pstr "01ARZ3NDEKTSV4RRFFQ69G5FAV")
      (pstr "01ARZ3NDEKTSV4RRFFQ69G5FAV.md") [] = [] := by
  refine ⟨by decide, by decide, by decide⟩

/-- C4, amended: for frontmatter parsing to a *non-empty* mapping with no
`id` key, validation reports the missing-id error; and when the mapping
maps `id` to a string different from the filename stem, validation
reports the mismatch error naming both values. -/
theorem c4_amended (fm : Frontmatter) (stem name : PyStr) (errs : List PyStr) :
    (fm ≠ [] → lookupId (some fm) = none →
      missingIdMsg ∈ validate_checks (some fm) stem name errs) ∧
    (∀ idv, lookupId (some fm) = some idv → idv ≠ stem →
      mismatchMsg stem (some idv) ∈ validate_checks (some fm) stem name errs) := by
  constructor
  · intro hne hnone
    unfold validate_checks
    have ht : fmTruthy (some fm) = true := by
      simp [fmTruthy, List.isEmpty_iff, hne]
    rw [if_pos (by rw [ht, hnone]; rfl)]
    simp
  · intro idv hl hne
    unfold validate_checks
    have ht : fmTruthy (some fm) = true := by
      have : fm ≠ [] := by
        intro h; subst h
        simp [lookupId] at hl
      simp [fmTruthy, List.isEmpty_iff, this]
    rw [if_neg (by rw [ht, hl]; simp)]
    rw [if_pos ?_, hl]
    · simp
    · rw [ht, hl]
      simp [hne]

/-- C3, witness: a concrete frontmatter block `"id: x"`, followed by a body
with one more standalone `---` line, is extracted as the first block. -/
theorem c3_witness :
    extract_frontmatter
      (pstr "---" ++ '\n' :: (pstr "id: x" ++ '\n' :: (pstr "---" ++ '\n' :: pstr "body\n---\nmore"))) =
      some (pstr "id: x") :=
  c3_amended (pstr "id: x") (pstr "body\n---\nmore") 'i' (pstr "d: x") (by decide)
    (by decide) (by unfold noCloseWithin; decide)

/-- C4, witness: the amended theorem applied to a non-empty mapping with no
`id` key, and to a mapping whose `id` differs from the filename stem. -/
theorem c4_witness :
    missingIdMsg ∈ validate_checks (some [(pstr "title", pstr "x")])
      (pstr "01ARZ3NDEKTSV4RRFFQ69G5FAV") (pstr "01ARZ3NDEKTSV4RRFFQ69G5FAV.md") [] ∧
    mismatchMsg (pstr "01ARZ3NDEKTSV4RRFFQ69G5FAV") (some (pstr "01BX5ZZKBKACTAV9WEVGEMMVRZ")) ∈
      validate_checks (some [(pstr "id", pstr "01BX5ZZKBKACTAV9WEVGEMMVRZ")])
        (pstr "01ARZ3NDEKTSV4RRFFQ69G5FAV") (pstr "01ARZ3NDEKTSV4RRFFQ69G5FAV.md") [] :=
  ⟨(c4_amended [(pstr "title", pstr "x")] _ _ _).1 (by decide) (by decide),
   (c4_amended [(pstr "id", pstr "01BX5ZZKBKACTAV9WEVGEMMVRZ")] _ _ _).2 _ (by decide) (by decide)⟩

/-- C9, counterexample: `re.match`'s `$` also matches just before a trailing
newline, so the 27-character stem `"0123456789ABCDEFGHJKMNPQRS\n"` is
accepted by `validate_ulid_format` although it is not exactly 26
characters from the Crockford alphabet. -/
theorem c9_counterexample :
    validate_ulid_format (pstr "0123456789ABCDEFGHJKMNPQRS\n") = true ∧
    (pstr "0123456789ABCDEFGHJKMNPQRS\n").length ≠ 26 := by
  refine ⟨by decide, by decide⟩

/-- C9, amended: `validate_ulid_format` accepts exactly the strings of 26
Crockford-base32 characters (case-insensitively, excluding I, L, O, U),
*or* such a string followed by one trailing newline (Python's `$`);
whenever it rejects, the validator reports the filename-format error,
whose text mentions the `<ulid>.md` shape. -/
theorem c9_amended (s : PyStr) (fm : Option Frontmatter) (name : PyStr)
    (errs : List PyStr) :
    (validate_ulid_format s = true ↔
      ((s.length = 26 ∧ s.all crockChar = true) ∨
       (s.length = 27 ∧ (s.take 26).all crockChar = true ∧ s.getLast? = some '\n'))) ∧
    (validate_ulid_format s = false →
      ulidErrMsg name ∈ validate_checks fm s name errs ∧
      ∃ pre post, ulidErrMsg name = pre ++ pstr "<ulid>.md" ++ post) := by
  constructor
  · unfold validate_ulid_format
    cases hm : matchRep crockChar 26 s with
    | none =>
      constructor
      · intro h; cases h
      · intro h
        rcases h with ⟨h1, h2⟩ | ⟨h1, h2, _⟩
        · have : matchRep crockChar 26 s = some (s.drop 26) := by
            rw [matchRep_eq_some]
            refine ⟨by omega, ?_, rfl⟩
            rw [List.take_of_length_le (by omega)]
            exact h2
          rw [hm] at this; cases this
        · have : matchRep crockChar 26 s = some (s.drop 26) := by
            rw [matchRep_eq_some]
            exact ⟨by omega, h2, rfl⟩
          rw [hm] at this; cases this
    | some t =>
      rw [matchRep_eq_some] at hm
      obtain ⟨hlen, hall, ht⟩ := hm
      subst ht
      show dollarEnd (s.drop 26) = true ↔ _
      unfold dollarEnd
      constructor
      · intro h
        rcases (by simpa using h : s.drop 26 = [] ∨ s.drop 26 = ['\n']) with h | h
        · left
          have hle : s.length ≤ 26 := by
            rw [← List.drop_eq_nil_iff]
            exact h
          refine ⟨by omega, ?_⟩
          rw [List.take_of_length_le hle] at hall
          exact hall
        · right
          have h27 : s.length = 27 := by
            have := congrArg List.length h
            simp only [List.length_drop, List.length_singleton] at this
            omega
          refine ⟨h27, hall, ?_⟩
          have hconc : (s.take 26 ++ s.drop 26).getLast? = some '\n' := by
            rw [h]
            exact List.getLast?_concat _
          rw [List.take_append_drop] at hconc
          exact hconc
      · intro h
        rcases h with ⟨h1, _⟩ | ⟨h1, _, h3⟩
        · have : s.drop 26 = [] := by
            rw [List.drop_eq_nil_iff]
            omega
          simp [this]
        · have hlen1 : (s.drop 26).length = 1 := by
            simp only [List.length_drop]
            omega
          obtain ⟨x, hx⟩ : ∃ x, s.drop 26 = [x] := by
            cases hd : s.drop 26 with
            | nil => rw [hd] at hlen1; cases hlen1
            | cons y ys =>
              rw [hd] at hlen1
              simp only [List.length_cons] at hlen1
              have : ys = [] := List.length_eq_zero.mp (by omega)
              exact ⟨y, by rw [this]⟩
          have h3' : (s.take 26 ++ s.drop 26).getLast? = some '\n' := by
            rw [List.take_append_drop]
            exact h3
          rw [hx, List.getLast?_concat] at h3'
          have hxn : x = '\n' := by
            exact Option.some_inj.mp h3'
          subst hxn
          simp [hx]
  · intro hv
    constructor
    · unfold validate_checks
      simp only [hv, Bool.false_eq_true, if_false]
      split
      · simp
      · split
        · simp
        · simp
    · exact ⟨_, _, ulid_msg_split name⟩

/-- C9, witness: the amended characterisation evaluated at an accepted
26-character stem and at a rejected stem, for which the error message is
reported. -/
theorem c9_witness :
    validate_ulid_format (pstr "01ARZ3NDEKTSV4RRFFQ69G5FAV") = true ∧
    ulidErrMsg (pstr "not-a-ulid.md") ∈
      validate_checks none (pstr "not-a-ulid") (pstr "not-a-ulid.md") [] :=
  ⟨((c9_amended (pstr "01ARZ3NDEKTSV4RRFFQ69G5FAV") none (pstr "x") []).1).mpr
      (Or.inl (by refine ⟨by decide, by decide⟩)),
   ((c9_amended (pstr "not-a-ulid") none (pstr "not-a-ulid.md") []).2 (by decide)).1⟩

/-- C5: `generate_unique_slug` returns the base slug when it is free;
otherwise it returns the candidate `base + separator + j` for the first
free `j` in the probed range `2 .. max_attempts + 1`. -/
theorem c5_theorem (g : SlugGenerator) (title : PyStr) (existing : List PyStr)
    (max_attempts now j : Nat) :
    (g.generate_slug title ∉ existing →
      g.generate_unique_slug title existing max_attempts now = g.generate_slug title) ∧
    (g.generate_slug title ∈ existing → 2 ≤ j → j ≤ max_attempts + 1 →
      candidateSlug g (g.generate_slug title) j ∉ existing →
      (∀ k, k < j → 2 ≤ k → candidateSlug g (g.generate_slug title) k ∈ existing) →
      g.generate_unique_slug title existing max_attempts now =
        candidateSlug g (g.generate_slug title) j) := by
  constructor
  · intro h
    unfold SlugGenerator.generate_unique_slug
    rw [if_neg h]
  · intro h h2 h3 h4 h5
    unfold SlugGenerator.generate_unique_slug
    rw [if_pos h]
    have hfind : (List.range' 2 max_attempts).find?
        (fun i => decide (candidateSlug g (g.generate_slug title) i ∉ existing)) = some j := by
      apply find?_range'_first max_attempts 2 j h2 (by omega)
      · exact decide_eq_true h4
      · intro k hk1 hk2
        simp only [decide_eq_false_iff_not, Decidable.not_not]
        exact h5 k hk2 hk1
    rw [hfind]

/-- C5, witness: with the base slug `"hello-world"` and `"hello-world"`,
`"hello-world-2"` already taken, the first free probe is `j = 3`. -/
theorem c5_witness :
    SlugGenerator.generate_unique_slug {} (pstr "Hello World!")
      [pstr "hello-world", pstr "hello-world-2"] 100 0 =
      candidateSlug {} (SlugGenerator.generate_slug {} (pstr "Hello World!")) 3 :=
  (c5_theorem {} (pstr "Hello World!") [pstr "hello-world", pstr "hello-world-2"]
      100 0 3).2 (by decide) (by decide) (by decide) (by decide)
    (by
      intro k hk1 hk2
      interval_cases k
      decide)

/-- C7: `generate_slug` is a pure function of the generator configuration
and its arguments — two generators agreeing on `max_length`,
`word_separator` and `stop_words` produce identical slugs for every
title, stop-word flag and replacement mapping. -/
theorem c7_theorem (g₁ g₂ : SlugGenerator) (h1 : g₁.max_length = g₂.max_length)
    (h2 : g₁.word_separator = g₂.word_separator) (h3 : g₁.stop_words = g₂.stop_words)
    (title : PyStr) (rsw : Bool) (cr : List (PyStr × PyStr)) :
    g₁.generate_slug title rsw cr = g₂.generate_slug title rsw cr := by
  obtain ⟨m1, w1, s1⟩ := g₁
  obtain ⟨m2, w2, s2⟩ := g₂
  simp only at h1 h2 h3
  subst h1; subst h2; subst h3
  rfl

/-- C7, witness: two syntactically different but equal configurations give
the same slug. -/
theorem c7_witness :
    SlugGenerator.generate_slug {} (pstr "Determinism Check!") true [] =
      SlugGenerator.generate_slug {max_length := 25 + 25} (pstr "Determinism Check!") true [] :=
  c7_theorem {} {max_length := 25 + 25} (by decide) (by decide) (by decide)
    (pstr "Determinism Check!") true []

theorem collapseRunsGo_id (p : Char → Bool) (rep : PyStr) (b : Bool) :
    ∀ (x : PyStr), (∀ c ∈ x, p c = false) → collapseRunsGo p rep b x = x := by
  intro x
  induction x generalizing b with
  | nil => intro _; rfl
  | cons c t ih =>
    intro h
    rw [collapseRunsGo, if_neg (by rw [h c (List.mem_cons_self c t)]; exact Bool.false_ne_true)]
    rw [ih false (fun d hd => h d (List.mem_cons_of_mem c hd))]

theorem stripChars_id (p : Char → Bool) (x : PyStr) (h : ∀ c ∈ x, p c = false) :
    stripChars p x = x := by
  have hdrop : ∀ (y : PyStr), (∀ c ∈ y, p c = false) → y.dropWhile p = y := by
    intro y hy
    cases y with
    | nil => rfl
    | cons c t =>
      exact List.dropWhile_cons_of_neg (by rw [hy c (List.mem_cons_self c t)]; exact Bool.false_ne_true)
  unfold stripChars
  rw [hdrop x h, hdrop x.reverse (fun c hc => h c (List.mem_reverse.mp hc)), List.reverse_reverse]

theorem rfindChar_eq_none (s : PyStr) (c : Char) (h : c ∉ s) : rfindChar s c = none := by
  unfold rfindChar
  have : s.reverse.findIdx? (· = c) = none := by
    rw [List.findIdx?_eq_none_iff]
    intro x hx
    simp only [decide_eq_false_iff_not]
    intro hxc
    exact h (by rw [← hxc]; exact List.mem_reverse.mp hx)
  rw [this]

theorem stripJunk_joinSep (sep : Char) (hsep : slugKeepChar sep = false) :
    ∀ (ws : List PyStr), stripJunk (joinSep sep ws) = (ws.map stripJunk).flatten := by
  intro ws
  induction ws with
  | nil => rfl
  | cons w ws ih =>
    cases ws with
    | nil => simp [joinSep, stripJunk]
    | cons w2 ws2 =>
      show stripJunk (w ++ sep :: joinSep sep (w2 :: ws2)) = _
      unfold stripJunk at *
      rw [List.filter_append, List.filter_cons_of_neg (by rw [hsep]; exact Bool.false_ne_true)]
      rw [ih]
      simp

theorem not_mem_stripJunk (sep : Char) (hsep : slugKeepChar sep = false) (s : PyStr) :
    sep ∉ stripJunk s := by
  intro h
  have := List.of_mem_filter h
  rw [hsep] at this
  cases this

/-- C8, counterexample: the title `"untitled"` produces the slug
`"untitled"` through the normal pipeline, with none of the three sentinel
conditions holding, so "exactly when" fails in the only-if direction. -/
theorem c8_counterexample :
    SlugGenerator.generate_slug {} (pstr "untitled") = pstr "untitled" ∧
    ¬(pstr "untitled" = ([] : PyStr)) ∧ ¬(pyStripWs (pstr "untitled") = []) ∧
    slugWords {} (preparedText (pstr "untitled") []) true ≠ [] ∧
    finalSlug {} (slugWords {} (preparedText (pstr "untitled") []) true) ≠ [] := by
  refine ⟨by decide, by decide, by decide, by decide, by decide⟩

/-- C8, amended: `generate_slug` is total and never returns the empty
string, and it returns the sentinel `"untitled"` *whenever* the title is
empty or all-whitespace, word filtering leaves zero words, or the final
cleaned result is empty (the converse fails: a title may legitimately
slug to `"untitled"`). -/
theorem c8_amended (title : PyStr) :
    ((title = [] ∨ pyStripWs title = [] ∨
      slugWords {} (preparedText title []) true = [] ∨
      finalSlug {} (slugWords {} (preparedText title []) true) = []) →
      SlugGenerator.generate_slug {} title = pstr "untitled") ∧
    SlugGenerator.generate_slug {} title ≠ [] := by
  constructor
  · intro h
    unfold SlugGenerator.generate_slug
    rcases h with h | h | h | h
    · rw [if_pos (Or.inl h)]
    · rw [if_pos (Or.inr h)]
    · by_cases h0 : title = [] ∨ pyStripWs title = []
      · rw [if_pos h0]
      · rw [if_neg h0]
        dsimp only
        rw [if_pos h]
    · by_cases h0 : title = [] ∨ pyStripWs title = []
      · rw [if_pos h0]
      · rw [if_neg h0]
        dsimp only
        by_cases h1 : slugWords {} (preparedText title []) true = []
        · rw [if_pos h1]
        · rw [if_neg h1, if_pos h]
  · unfold SlugGenerator.generate_slug
    split
    · decide
    · dsimp only
      split
      · decide
      · split
        · decide
        · rename_i hne
          exact hne

/-- C8, witness: an all-whitespace title returns the sentinel, and a
normal title returns a non-empty slug. -/
theorem c8_witness :
    SlugGenerator.generate_slug {} (pstr "   ") = pstr "untitled" ∧
    SlugGenerator.generate_slug {} (pstr "Hello World!") ≠ [] :=
  ⟨(c8_amended (pstr "   ")).1 (Or.inr (Or.inl (by decide))),
   (c8_amended (pstr "Hello World!")).2⟩

/-- C10, counterexample: the backslash separator is in the scope of the
claim (it lies outside `[a-zA-Z0-9\-_]`), yet the separator-collapse
`re.sub(f"[{re.escape(sep)}]+", sep, slug)` raises `re.error` for it —
the one-character replacement template `"\\"` is the
`bad escape (end of pattern)` error — instead of returning a slug; and
the raising call is reached, since a two-word title leaves surviving
words. -/
theorem c10_counterexample :
    slugKeepChar '\\' = false ∧ replRaises ['\\'] = true ∧
    slugWords {word_separator := '\\'} (preparedText (pstr "hello world") []) true ≠ [] := by
  refine ⟨by decide, by decide, by decide⟩

/-- C10, amended: for every generator whose single-character separator is
outside `[a-zA-Z0-9\-_]` *and* is a valid `re.sub` replacement template
(every such character except the backslash, for which the real code
raises `re.error` instead of returning), and for every title, stop-word
flag and custom replacements, the generated slug never contains the
separator (the post-join character strip removes it), and the result is
either the sentinel or the plain concatenation of the surviving words'
kept characters cut at `max_length`. -/
theorem c10_amended (g : SlugGenerator) (title : PyStr) (rsw : Bool)
    (crs : List (PyStr × PyStr))
    (hsep : slugKeepChar g.word_separator = false)
    (hrepl : replRaises [g.word_separator] = false) :
    g.word_separator ∉ g.generate_slug title rsw crs ∧
    (g.generate_slug title rsw crs = pstr "untitled" ∨
     g.generate_slug title rsw crs =
       List.take g.max_length
         ((slugWords g (preparedText title crs) rsw).map stripJunk).flatten) := by
  have huntitled : g.word_separator ∉ pstr "untitled" := by
    intro hmem
    have hall : ∀ c ∈ pstr "untitled", slugKeepChar c = true := by decide
    rw [hall g.word_separator hmem] at hsep
    cases hsep
  have hfinal : ∀ ws : List PyStr,
      finalSlug g ws = List.take g.max_length ((ws.map stripJunk).flatten) := by
    intro ws
    have hnot2 : g.word_separator ∉ (ws.map stripJunk).flatten := by
      intro hmem
      obtain ⟨l, hl, hcl⟩ := List.mem_flatten.mp hmem
      obtain ⟨w, _, hw⟩ := List.mem_map.mp hl
      exact not_mem_stripJunk g.word_separator hsep w (by rw [hw]; exact hcl)
    unfold finalSlug
    dsimp only
    rw [stripJunk_joinSep g.word_separator hsep ws]
    rw [collapseRuns, collapseRunsGo_id _ _ _ _
      (fun c hc => by
        simp only [decide_eq_false_iff_not]
        intro he
        exact hnot2 (he ▸ hc))]
    have hstrip1 : stripChars (fun c => decide (c = g.word_separator))
        ((ws.map stripJunk).flatten) = (ws.map stripJunk).flatten :=
      stripChars_id _ _
        (fun c hc => by
          simp only [decide_eq_false_iff_not]
          intro he
          exact hnot2 (he ▸ hc))
    rw [hstrip1]
    have htr : SlugGenerator.truncate_slug g ((ws.map stripJunk).flatten) =
        List.take g.max_length ((ws.map stripJunk).flatten) := by
      unfold SlugGenerator.truncate_slug
      dsimp only
      split
      · rename_i hle
        rw [List.take_of_length_le hle]
      · rename_i hgt
        have hrf : rfindChar (((ws.map stripJunk).flatten).take g.max_length)
            g.word_separator = none := by
          apply rfindChar_eq_none
          intro hmem
          exact hnot2 (List.mem_of_mem_take hmem)
        rw [hrf]
    rw [htr]
    exact stripChars_id _ _
      (fun c hc => by
        simp only [decide_eq_false_iff_not]
        intro he
        subst he
        exact hnot2 (List.mem_of_mem_take hc))
  have hnotflat : ∀ ws : List PyStr,
      g.word_separator ∉ List.take g.max_length ((ws.map stripJunk).flatten) := by
    intro ws hmem
    obtain ⟨l, hl, hcl⟩ := List.mem_flatten.mp (List.mem_of_mem_take hmem)
    obtain ⟨w, _, hw⟩ := List.mem_map.mp hl
    exact not_mem_stripJunk g.word_separator hsep w (by rw [hw]; exact hcl)
  constructor
  · unfold SlugGenerator.generate_slug
    split
    · exact huntitled
    · dsimp only
      split
      · exact huntitled
      · split
        · exact huntitled
        · rw [hfinal]
          exact hnotflat _
  · unfold SlugGenerator.generate_slug
    split
    · exact Or.inl rfl
    · dsimp only
      split
      · exact Or.inl rfl
      · split
        · exact Or.inl rfl
        · exact Or.inr (hfinal _)

/-- C10, witness: with separator `'.'` (a valid replacement template) the
two-word title collapses into a single concatenated run with no
separator occurrence. -/
theorem c10_witness :
    '.' ∉ SlugGenerator.generate_slug {word_separator := '.'} (pstr "hello world") true [] :=
  ( c10_amended {word_separator := '.'} (pstr "hello world") true [] (by decide) (by decide)).1

/-! ## Character-level lemmas for the slug pipeline -/

theorem mem_joinSep {sep : Char} {c : Char} :
    ∀ {ws : List PyStr}, c ∈ joinSep sep ws → c = sep ∨ ∃ w ∈ ws, c ∈ w := by
  intro ws
  induction ws with
  | nil => intro h; cases h
  | cons w ws ih =>
    cases ws with
    | nil => intro h; exact Or.inr ⟨w, List.mem_cons_self _ _, h⟩
    | cons w2 ws2 =>
      intro h
      rcases List.mem_append.mp h with h | h
      · exact Or.inr ⟨w, List.mem_cons_self _ _, h⟩
      · rcases List.mem_cons.mp h with h | h
        · exact Or.inl h
        · rcases ih h with h | ⟨u, hu, hcu⟩
          · exact Or.inl h
          · exact Or.inr ⟨u, List.mem_cons_of_mem _ hu, hcu⟩

theorem mem_pySplitGo {c : Char} :
    ∀ (s acc w : PyStr), w ∈ pySplitGo acc s → c ∈ w → c ∈ acc ∨ c ∈ s := by
  intro s
  induction s with
  | nil =>
    intro acc w hw hc
    unfold pySplitGo at hw
    split at hw
    · cases hw
    · rcases List.mem_singleton.mp hw with rfl
      exact Or.inl (List.mem_reverse.mp hc)
  | cons d t ih =>
    intro acc w hw hc
    unfold pySplitGo at hw
    split at hw
    · rcases List.mem_append.mp hw with hw | hw
      · split at hw
        · cases hw
        · rcases List.mem_singleton.mp hw with rfl
          exact Or.inl (List.mem_reverse.mp hc)
      · rcases ih [] w hw hc with h | h
        · cases h
        · exact Or.inr (List.mem_cons_of_mem _ h)
    · rcases ih (d :: acc) w hw hc with h | h
      · rcases List.mem_cons.mp h with rfl | h
        · exact Or.inr (List.mem_cons_self _ _)
        · exact Or.inl h
      · exact Or.inr (List.mem_cons_of_mem _ h)

theorem mem_pySplit {c : Char} {s w : PyStr} (hw : w ∈ pySplit s) (hc : c ∈ w) : c ∈ s := by
  rcases mem_pySplitGo s [] w hw hc with h | h
  · cases h
  · exact h

theorem mem_subChars {cls : List Char} {rep s : PyStr} {c : Char}
    (h : c ∈ subChars cls rep s) : c ∈ rep ∨ c ∈ s := by
  unfold subChars at h
  obtain ⟨a, ha, hca⟩ := List.mem_flatMap.mp h
  by_cases hm : a ∈ cls
  · rw [if_pos hm] at hca
    exact Or.inl hca
  · rw [if_neg hm] at hca
    rcases List.mem_singleton.mp hca with rfl
    exact Or.inr ha

theorem mem_camelSplit {c : Char} : ∀ {s : PyStr}, c ∈ camelSplit s → c = ' ' ∨ c ∈ s := by
  intro s
  induction s using camelSplit.induct with
  | case1 => intro h; cases h
  | case2 d => intro h; exact Or.inr h
  | case3 a b rest hab ih =>
    intro h
    rw [camelSplit, if_pos hab] at h
    rcases List.mem_cons.mp h with rfl | h
    · exact Or.inr (List.mem_cons_self _ _)
    · rcases List.mem_cons.mp h with rfl | h
      · exact Or.inl rfl
      · rcases List.mem_cons.mp h with rfl | h
        · exact Or.inr (List.mem_cons_of_mem _ (List.mem_cons_self _ _))
        · rcases ih h with h | h
          · exact Or.inl h
          · exact Or.inr (List.mem_cons_of_mem _ (List.mem_cons_of_mem _ h))
  | case4 a b rest hab ih =>
    intro h
    rw [camelSplit, if_neg hab] at h
    rcases List.mem_cons.mp h with rfl | h
    · exact Or.inr (List.mem_cons_self _ _)
    · rcases ih h with h | h
      · exact Or.inl h
      · exact Or.inr (List.mem_cons_of_mem _ h)

theorem mem_numSpaceGo {c : Char} :
    ∀ (s : PyStr) (b : Bool), c ∈ numSpaceGo b s → c = ' ' ∨ c ∈ s := by
  intro s
  induction s with
  | nil =>
    intro b h
    unfold numSpaceGo at h
    split at h
    · rcases List.mem_singleton.mp h with rfl
      exact Or.inl rfl
    · cases h
  | cons d t ih =>
    intro b h
    unfold numSpaceGo at h
    split at h <;>
    · rcases List.mem_append.mp h with h | h
      · split at h
        all_goals
          first
          | exact (List.not_mem_nil c h).elim
          | (rcases List.mem_singleton.mp h with rfl; exact Or.inl rfl)
      · rcases List.mem_cons.mp h with rfl | h
        · exact Or.inr (List.mem_cons_self _ _)
        · rcases ih _ h with h | h
          · exact Or.inl h
          · exact Or.inr (List.mem_cons_of_mem _ h)

theorem mem_collapseRunsGo {p : Char → Bool} {rep : PyStr} {c : Char} :
    ∀ (s : PyStr) (b : Bool), c ∈ collapseRunsGo p rep b s → c ∈ rep ∨ c ∈ s := by
  intro s
  induction s with
  | nil => intro b h; cases h
  | cons d t ih =>
    intro b h
    unfold collapseRunsGo at h
    split at h
    · rcases List.mem_append.mp h with h | h
      · split at h
        · cases h
        · exact Or.inl h
      · rcases ih _ h with h | h
        · exact Or.inl h
        · exact Or.inr (List.mem_cons_of_mem _ h)
    · rcases List.mem_cons.mp h with rfl | h
      · exact Or.inr (List.mem_cons_self _ _)
      · rcases ih _ h with h | h
        · exact Or.inl h
        · exact Or.inr (List.mem_cons_of_mem _ h)

theorem mem_stripChars {p : Char → Bool} {s : PyStr} {c : Char}
    (h : c ∈ stripChars p s) : c ∈ s := by
  unfold stripChars at h
  have h1 := List.mem_reverse.mp h
  have h2 := List.dropWhile_subset _ h1
  have h3 := List.mem_reverse.mp h2
  exact List.dropWhile_subset _ h3

theorem remove_accents_id (s : PyStr) : remove_accents s = s := by
  unfold remove_accents nfkd combining
  simp

theorem clean_text_no_upper (t : PyStr) : ∀ c ∈ clean_text t, isUpperA c = false := by
  intro c hc
  unfold clean_text at hc
  split at hc
  · cases hc
  · have hsp : isUpperA ' ' = false := by decide
    have h8 := mem_stripChars hc
    rcases mem_collapseRunsGo _ _ h8 with h7 | h7
    · rcases List.mem_singleton.mp h7 with rfl
      exact hsp
    · rcases mem_numSpaceGo _ _ h7 with rfl | h6
      · exact hsp
      · rcases mem_camelSplit h6 with rfl | h5
        · exact hsp
        · rcases mem_subChars h5 with h4 | h4
          · rcases List.mem_singleton.mp h4 with rfl
            exact hsp
          · rcases mem_subChars h4 with h3 | h3
            · rcases List.mem_singleton.mp h3 with rfl
              exact hsp
            · rcases mem_subChars h3 with h2 | h2
              · have : ∀ d ∈ pstr " and ", isUpperA d = false := by decide
                exact this c h2
              · rw [remove_accents_id] at h2
                obtain ⟨d, _, hd⟩ := List.mem_map.mp h2
                rw [← hd]
                exact isUpperA_pyLower d

/-! ## Separator-structure lemmas -/

theorem noDD_tail {sep a : Char} {l : PyStr}
    (h : noDoubleSep sep (a :: l) = true) : noDoubleSep sep l = true := by
  cases l with
  | nil => rfl
  | cons b t =>
    unfold noDoubleSep at h
    rw [Bool.and_eq_true] at h
    exact h.2

theorem noDD_cons_of {sep a : Char} {l : PyStr} (hl : noDoubleSep sep l = true)
    (hh : ∀ b, l.head? = some b → a = sep → b = sep → False) :
    noDoubleSep sep (a :: l) = true := by
  cases l with
  | nil => rfl
  | cons b t =>
    unfold noDoubleSep
    rw [Bool.and_eq_true]
    refine ⟨?_, hl⟩
    simp only [Bool.not_eq_eq_eq_not, Bool.not_true, Bool.and_eq_false_imp]
    intro ha
    rw [decide_eq_true_iff] at ha
    rw [decide_eq_false_iff_not]
    intro hb
    exact hh b rfl ha hb

theorem noDD_pair {sep a b : Char} {l : PyStr}
    (h : noDoubleSep sep (a :: b :: l) = true) : a = sep → b = sep → False := by
  intro ha hb
  unfold noDoubleSep at h
  rw [Bool.and_eq_true] at h
  have := h.1
  rw [ha, hb] at this
  simp at this

theorem noDD_append_left {sep : Char} :
    ∀ {l t : PyStr}, noDoubleSep sep (l ++ t) = true → noDoubleSep sep l = true := by
  intro l
  induction l with
  | nil => intro t _; rfl
  | cons a l ih =>
    intro t h
    have htail : noDoubleSep sep (l ++ t) = true := noDD_tail h
    refine noDD_cons_of (ih htail) ?_
    intro b hb ha hbs
    cases l with
    | nil => cases hb
    | cons b0 l2 =>
      rcases Option.some_inj.mp hb
      exact noDD_pair h ha hbs

theorem noDD_append_right {sep : Char} :
    ∀ {t l : PyStr}, noDoubleSep sep (t ++ l) = true → noDoubleSep sep l = true := by
  intro t
  induction t with
  | nil => intro l h; exact h
  | cons a t ih => intro l h; exact ih (noDD_tail h)

theorem noDD_take {sep : Char} {l : PyStr} (m : Nat)
    (h : noDoubleSep sep l = true) : noDoubleSep sep (l.take m) = true := by
  have := List.take_append_drop m l
  rw [← this] at h
  exact noDD_append_left h

theorem collapse_noDD (sep : Char) :
    ∀ (s : PyStr) (b : Bool),
      noDoubleSep sep (collapseRunsGo (fun c => decide (c = sep)) [sep] b s) = true ∧
      ((collapseRunsGo (fun c => decide (c = sep)) [sep] true s).head? = some sep → False) := by
  intro s
  induction s with
  | nil =>
    intro b
    refine ⟨rfl, ?_⟩
    intro h
    cases h
  | cons c t ih =>
    intro b
    by_cases hc : c = sep
    · have hpc : decide (c = sep) = true := by simp [hc]
      have hgoT : collapseRunsGo (fun x => decide (x = sep)) [sep] true (c :: t) =
          collapseRunsGo (fun x => decide (x = sep)) [sep] true t := by
        simp only [collapseRunsGo, hpc]
        simp
      have hgoF : collapseRunsGo (fun x => decide (x = sep)) [sep] false (c :: t) =
          sep :: collapseRunsGo (fun x => decide (x = sep)) [sep] true t := by
        simp only [collapseRunsGo, hpc]
        simp
      constructor
      · cases b with
        | true =>
          rw [hgoT]
          exact (ih true).1
        | false =>
          rw [hgoF]
          refine noDD_cons_of (ih true).1 ?_
          intro d hd _ hds
          subst hds
          exact (ih true).2 hd
      · rw [hgoT]
        exact (ih true).2
    · have hpc : decide (c = sep) = false := decide_eq_false hc
      have hgo : ∀ b2 : Bool, collapseRunsGo (fun x => decide (x = sep)) [sep] b2 (c :: t) =
          c :: collapseRunsGo (fun x => decide (x = sep)) [sep] false t := by
        intro b2
        simp only [collapseRunsGo, hpc]
        simp
      constructor
      · rw [hgo b]
        refine noDD_cons_of (ih false).1 ?_
        intro d _ hcs _
        exact hc hcs
      · rw [hgo true]
        simp only [List.head?_cons, Option.some_inj]
        intro h
        exact hc h

theorem dropWhile_head_not {p : Char → Bool} :
    ∀ {s : PyStr} {c : Char}, (s.dropWhile p).head? = some c → p c = false := by
  intro s
  induction s with
  | nil => intro c h; cases h
  | cons a t ih =>
    intro c h
    by_cases ha : p a = true
    · rw [List.dropWhile_cons_of_pos ha] at h
      exact ih h
    · rw [List.dropWhile_cons_of_neg ha] at h
      rcases Option.some_inj.mp h
      exact Bool.eq_false_iff.mpr ha

theorem stripChars_prefix (p : Char → Bool) (s : PyStr) :
    ∃ t, stripChars p s ++ t = s.dropWhile p := by
  obtain ⟨u, hu⟩ := List.dropWhile_suffix (l := (s.dropWhile p).reverse) p
  refine ⟨u.reverse, ?_⟩
  unfold stripChars
  have := congrArg List.reverse hu
  rw [List.reverse_append, List.reverse_reverse] at this
  exact this

theorem noDD_stripChars {sep : Char} (p : Char → Bool) {s : PyStr}
    (h : noDoubleSep sep s = true) : noDoubleSep sep (stripChars p s) = true := by
  obtain ⟨t, ht⟩ := stripChars_prefix p s
  obtain ⟨u, hu⟩ := List.dropWhile_suffix (l := s) p
  have h1 : noDoubleSep sep (s.dropWhile p) = true := by
    rw [← hu] at h
    exact noDD_append_right h
  rw [← ht] at h1
  exact noDD_append_left h1

theorem stripChars_head_not {p : Char → Bool} {s : PyStr} {c : Char}
    (h : (stripChars p s).head? = some c) : p c = false := by
  obtain ⟨t, ht⟩ := stripChars_prefix p s
  have hne : stripChars p s ≠ [] := by
    intro he
    rw [he] at h
    cases h
  have : (s.dropWhile p).head? = some c := by
    rw [← ht, List.head?_append, h]
    rfl
  exact dropWhile_head_not this

theorem stripChars_getLast_not {p : Char → Bool} {s : PyStr} {c : Char}
    (h : (stripChars p s).getLast? = some c) : p c = false := by
  unfold stripChars at h
  rw [List.getLast?_reverse] at h
  exact dropWhile_head_not h

theorem truncate_is_take (g : SlugGenerator) (s : PyStr) :
    ∃ m, g.truncate_slug s = s.take m := by
  unfold SlugGenerator.truncate_slug
  split
  · exact ⟨s.length, (List.take_length s).symm⟩
  · dsimp only
    split
    · split
      · rename_i i _ _
        refine ⟨min i g.max_length, ?_⟩
        rw [List.take_take]
      · exact ⟨g.max_length, rfl⟩
    · exact ⟨g.max_length, rfl⟩

theorem finalSlug_default_props (ws : List PyStr)
    (hws : ∀ w ∈ ws, ∀ c ∈ w, isUpperA c = false) :
    (∀ c ∈ finalSlug {} ws, slugChar c = true) ∧
    noDoubleSep '-' (finalSlug {} ws) = true ∧
    ((finalSlug {} ws).head? = some '-' → False) ∧
    ((finalSlug {} ws).getLast? = some '-' → False) := by
  have hfs : finalSlug {} ws =
      stripChars (fun c => decide (c = '-'))
        (SlugGenerator.truncate_slug {}
          (stripChars (fun c => decide (c = '-'))
            (collapseRuns (fun c => decide (c = '-')) ['-']
              (stripJunk (joinSep '-' ws))))) := rfl
  have hchars2 : ∀ c ∈ stripJunk (joinSep '-' ws), slugChar c = true := by
    intro c hc
    have hk := List.of_mem_filter hc
    have hm := List.mem_of_mem_filter hc
    rcases mem_joinSep hm with rfl | ⟨w, hw, hcw⟩
    · decide
    · have hu : isUpperA c = false := hws w hw c hcw
      unfold slugKeepChar at hk
      unfold slugChar
      rw [hu] at hk
      simpa using hk
  have hnoDD3 : noDoubleSep '-'
      (collapseRuns (fun c => decide (c = '-')) ['-'] (stripJunk (joinSep '-' ws))) = true :=
    (collapse_noDD '-' (stripJunk (joinSep '-' ws)) false).1
  have hchars3 : ∀ c ∈ collapseRuns (fun c => decide (c = '-')) ['-']
      (stripJunk (joinSep '-' ws)), slugChar c = true := by
    intro c hc
    rcases mem_collapseRunsGo _ _ hc with h | h
    · rcases List.mem_singleton.mp h with rfl
      decide
    · exact hchars2 c h
  have hnoDD4 : noDoubleSep '-' (stripChars (fun c => decide (c = '-'))
      (collapseRuns (fun c => decide (c = '-')) ['-'] (stripJunk (joinSep '-' ws)))) = true :=
    noDD_stripChars _ hnoDD3
  have hchars4 : ∀ c ∈ stripChars (fun c => decide (c = '-'))
      (collapseRuns (fun c => decide (c = '-')) ['-'] (stripJunk (joinSep '-' ws))),
      slugChar c = true :=
    fun c hc => hchars3 c (mem_stripChars hc)
  obtain ⟨m, hm⟩ := truncate_is_take ({} : SlugGenerator)
    (stripChars (fun c => decide (c = '-'))
      (collapseRuns (fun c => decide (c = '-')) ['-'] (stripJunk (joinSep '-' ws))))
  have hchars5 : ∀ c ∈ SlugGenerator.truncate_slug {}
      (stripChars (fun c => decide (c = '-'))
        (collapseRuns (fun c => decide (c = '-')) ['-'] (stripJunk (joinSep '-' ws)))),
      slugChar c = true := by
    rw [hm]
    exact fun c hc => hchars4 c (List.mem_of_mem_take hc)
  have hnoDD5 : noDoubleSep '-' (SlugGenerator.truncate_slug {}
      (stripChars (fun c => decide (c = '-'))
        (collapseRuns (fun c => decide (c = '-')) ['-'] (stripJunk (joinSep '-' ws))))) = true := by
    rw [hm]
    exact noDD_take m hnoDD4
  rw [hfs]
  refine ⟨?_, ?_, ?_, ?_⟩
  · exact fun c hc => hchars5 c (mem_stripChars hc)
  · exact noDD_stripChars _ hnoDD5
  · intro h
    have := stripChars_head_not h
    simp at this
  · intro h
    have := stripChars_getLast_not h
    simp at this

/-- C1, counterexample: the default-configuration slug of `"a_b"` is
`"a_b"`, which contains an underscore — a character that is neither a
lowercase letter, a digit, nor the separator, so the claimed pattern
`^[a-z0-9]+(-[a-z0-9]+)*$` is violated. -/
theorem c1_counterexample :
    SlugGenerator.generate_slug {} (pstr "a_b") = pstr "a_b" ∧
    '_' ∈ SlugGenerator.generate_slug {} (pstr "a_b") ∧
    isLowerA '_' = false ∧ isDigitA '_' = false ∧ '_' ≠ '-' := by
  refine ⟨by decide, by decide, by decide, by decide, by decide⟩

/-- C1, amended: for every ASCII title, the default-configuration slug is
non-empty and matches `^[a-z0-9_]+(-[a-z0-9_]+)*$`: every character is a
lowercase letter, digit, hyphen or underscore (underscores survive the
`[^a-zA-Z0-9\-_]` strip), with no duplicated and no leading or trailing
occurrence of the separator `-`. -/
theorem c1_amended (title : PyStr) (hascii : ∀ c ∈ title, c.toNat ≤ 127) :
    SlugGenerator.generate_slug {} title ≠ [] ∧
    (∀ c ∈ SlugGenerator.generate_slug {} title, slugChar c = true) ∧
    noDoubleSep '-' (SlugGenerator.generate_slug {} title) = true ∧
    (SlugGenerator.generate_slug {} title).head? ≠ some '-' ∧
    (SlugGenerator.generate_slug {} title).getLast? ≠ some '-' := by
  unfold SlugGenerator.generate_slug
  split
  · exact ⟨by decide, by decide, by decide, by decide, by decide⟩
  · dsimp only
    split
    · exact ⟨by decide, by decide, by decide, by decide, by decide⟩
    · split
      · exact ⟨by decide, by decide, by decide, by decide, by decide⟩
      · rename_i hne
        have hws : ∀ w ∈ slugWords {} (preparedText title []) true,
            ∀ c ∈ w, isUpperA c = false := by
          intro w hw c hc
          unfold slugWords SlugGenerator.filter_words at hw
          have hw2 := List.mem_of_mem_filter hw
          exact clean_text_no_upper _ c (mem_pySplit hw2 hc)
        obtain ⟨h1, h2, h3, h4⟩ := finalSlug_default_props _ hws
        exact ⟨hne, h1, h2, fun h => h3 h, fun h => h4 h⟩

/-- C1, witness: the slug of `"Hello World!"` is non-empty and draws all
its characters from the allowed alphabet. -/
theorem c1_witness :
    SlugGenerator.generate_slug {} (pstr "Hello World!") ≠ [] ∧
    (∀ c ∈ SlugGenerator.generate_slug {} (pstr "Hello World!"), slugChar c = true) :=
  ⟨(c1_amended (pstr "Hello World!") (by decide)).1,
   (c1_amended (pstr "Hello World!") (by decide)).2.1⟩

/-! ## Lemmas toward canonical-slug idempotence -/

theorem slugChar_cases {c : Char} (h : slugChar c = true) :
    isLowerA c = true ∨ isDigitA c = true ∨ c = '-' ∨ c = '_' := by
  unfold slugChar at h
  simp only [Bool.or_eq_true, decide_eq_true_eq] at h
  tauto

theorem slugChar_not_upper {c : Char} (h : slugChar c = true) : isUpperA c = false := by
  rw [Bool.eq_false_iff]
  intro hu
  simp only [isUpperA, Bool.and_eq_true, decide_eq_true_eq] at hu
  rcases slugChar_cases h with h1 | h1 | rfl | rfl
  · simp only [isLowerA, Bool.and_eq_true, decide_eq_true_eq] at h1
    omega
  · simp only [isDigitA, Bool.and_eq_true, decide_eq_true_eq] at h1
    omega
  · revert hu
    decide
  · revert hu
    decide

theorem slugChar_not_space {c : Char} (h : slugChar c = true) : pyIsSpace c = false := by
  rw [Bool.eq_false_iff]
  intro hs
  simp only [pyIsSpace, pyWsRe, Bool.or_eq_true, decide_eq_true_eq] at hs
  rcases hs with ((((((((rfl | rfl) | rfl) | rfl) | rfl) | rfl) | rfl) | rfl) | rfl) | rfl <;>
    exact absurd h (by decide)

theorem slugChar_not_wsre {c : Char} (h : slugChar c = true) : pyWsRe c = false := by
  have hs := slugChar_not_space h
  rw [Bool.eq_false_iff] at hs ⊢
  intro hw
  exact hs (by simp [pyIsSpace, hw])

theorem slugChar_notin_and {c : Char} (h : slugChar c = true) : c ∉ andClass := by
  intro hm
  simp only [andClass] at hm
  fin_cases hm <;> exact absurd h (by decide)

theorem slugChar_notin_punct {c : Char} (h : slugChar c = true) : c ∉ punctClass := by
  intro hm
  simp only [punctClass] at hm
  fin_cases hm <;> exact absurd h (by decide)

theorem slugChar_notin_slash {c : Char} (h : slugChar c = true) : c ∉ slashClass := by
  intro hm
  simp only [slashClass] at hm
  fin_cases hm <;> exact absurd h (by decide)

theorem pyLower_eq_self {c : Char} (h : isUpperA c = false) : pyLower c = c := by
  unfold pyLower Char.toLower
  rw [if_neg]
  intro hc
  rw [Bool.eq_false_iff] at h
  exact h (by simp only [isUpperA, Bool.and_eq_true, decide_eq_true_eq]; omega)

theorem map_pyLower_id {s : PyStr} (h : ∀ c ∈ s, isUpperA c = false) :
    s.map pyLower = s := by
  induction s with
  | nil => rfl
  | cons c t ih =>
    simp only [List.map_cons]
    rw [pyLower_eq_self (h c (List.mem_cons_self _ _)),
      ih (fun d hd => h d (List.mem_cons_of_mem _ hd))]

theorem subChars_id {cls : List Char} {rep s : PyStr} (h : ∀ c ∈ s, c ∉ cls) :
    subChars cls rep s = s := by
  induction s with
  | nil => rfl
  | cons c t ih =>
    unfold subChars at *
    rw [List.flatMap_cons, if_neg (h c (List.mem_cons_self _ _))]
    rw [ih (fun d hd => h d (List.mem_cons_of_mem _ hd))]
    rfl

theorem camelSplit_id {s : PyStr} (h : ∀ c ∈ s, isUpperA c = false) :
    camelSplit s = s := by
  induction s using camelSplit.induct with
  | case1 => rfl
  | case2 d => rfl
  | case3 a b rest hab ih =>
    exfalso
    rw [Bool.and_eq_true] at hab
    have := h b (List.mem_cons_of_mem _ (List.mem_cons_self _ _))
    rw [hab.2] at this
    cases this
  | case4 a b rest hab ih =>
    rw [camelSplit, if_neg hab]
    rw [ih (fun d hd => h d (List.mem_cons_of_mem _ hd))]

theorem digit_slugChar {c : Char} (h : isDigitA c = true) : slugChar c = true := by
  unfold slugChar
  rw [h]
  simp

theorem numSpaceGo_nondigit {W : PyStr} (hW : ∀ c ∈ W, isDigitA c = false) (r : PyStr) :
    numSpaceGo false (W ++ r) = W ++ numSpaceGo false r := by
  induction W with
  | nil => rfl
  | cons c t ih =>
    have hc := hW c (List.mem_cons_self _ _)
    show numSpaceGo false (c :: (t ++ r)) = c :: (t ++ numSpaceGo false r)
    rw [numSpaceGo, if_neg (by rw [hc]; exact Bool.false_ne_true)]
    rw [ih (fun d hd => hW d (List.mem_cons_of_mem _ hd)) ]
    rfl

theorem numSpaceGo_digits_aux {D : PyStr} (hD : ∀ c ∈ D, isDigitA c = true) (r : PyStr)
    (hr : ∀ d, r.head? = some d → isDigitA d = false) :
    numSpaceGo true (D ++ r) = D ++ ' ' :: numSpaceGo false r := by
  induction D with
  | nil =>
    cases r with
    | nil => rfl
    | cons d r2 =>
      have hd := hr d rfl
      show numSpaceGo true (d :: r2) = [] ++ ' ' :: numSpaceGo false (d :: r2)
      simp [numSpaceGo, hd]
  | cons c D2 ih =>
    have hc := hD c (List.mem_cons_self _ _)
    show numSpaceGo true (c :: (D2 ++ r)) = c :: (D2 ++ ' ' :: numSpaceGo false r)
    rw [numSpaceGo, if_pos hc]
    rw [ih (fun d hd => hD d (List.mem_cons_of_mem _ hd))]
    rfl

theorem numSpaceGo_digits {D : PyStr} (hne : D ≠ []) (hD : ∀ c ∈ D, isDigitA c = true)
    (r : PyStr) (hr : ∀ d, r.head? = some d → isDigitA d = false) :
    numSpaceGo false (D ++ r) = ' ' :: (D ++ ' ' :: numSpaceGo false r) := by
  cases D with
  | nil => exact absurd rfl hne
  | cons c D2 =>
    have hc := hD c (List.mem_cons_self _ _)
    show numSpaceGo false (c :: (D2 ++ r)) = ' ' :: (c :: (D2 ++ ' ' :: numSpaceGo false r))
    rw [numSpaceGo, if_pos hc]
    rw [numSpaceGo_digits_aux (fun d hd => hD d (List.mem_cons_of_mem _ hd)) r hr]
    rfl

theorem pySplit_ws_head {c : Char} (hc : pyIsSpace c = true) (t : PyStr) :
    pySplit (c :: t) = pySplit t := by
  show pySplitGo [] (c :: t) = pySplitGo [] t
  rw [pySplitGo, if_pos hc]
  rfl

theorem pySplitGo_chunk :
    ∀ (w : PyStr), w ≠ [] → ∀ (acc r : PyStr), (∀ c ∈ w, pyIsSpace c = false) →
    (∀ d, r.head? = some d → pyIsSpace d = true) →
    pySplitGo acc (w ++ r) = (acc.reverse ++ w) :: pySplit r := by
  intro w
  induction w with
  | nil => intro h; exact absurd rfl h
  | cons c w2 ih =>
    intro _ acc r hw hr
    have hc := hw c (List.mem_cons_self _ _)
    show pySplitGo acc (c :: (w2 ++ r)) = _
    rw [pySplitGo, if_neg (by rw [hc]; exact Bool.false_ne_true)]
    cases hw2 : w2 with
    | nil =>
      subst hw2
      show pySplitGo (c :: acc) r = (acc.reverse ++ [c]) :: pySplit r
      cases r with
      | nil =>
        show (if (c :: acc).isEmpty then [] else [(c :: acc).reverse]) = _
        simp [pySplit, pySplitGo]
      | cons d r2 =>
        have hd := hr d rfl
        rw [pySplitGo, if_pos hd]
        show (if (c :: acc).isEmpty then [] else [(c :: acc).reverse]) ++ pySplitGo [] r2 = _
        have : pySplit (d :: r2) = pySplitGo [] r2 := by
          show pySplitGo [] (d :: r2) = _
          rw [pySplitGo, if_pos hd]
          rfl
        rw [this]
        simp
    | cons e w3 =>
      rw [← hw2]
      have := ih (by rw [hw2]; exact List.cons_ne_nil _ _) (c :: acc) r
        (fun d hd => hw d (List.mem_cons_of_mem _ hd)) hr
      rw [this]
      simp

theorem pySplit_chunk (w r : PyStr) (hne : w ≠ []) (hw : ∀ c ∈ w, pyIsSpace c = false)
    (hr : ∀ d, r.head? = some d → pyIsSpace d = true) :
    pySplit (w ++ r) = w :: pySplit r := by
  have := pySplitGo_chunk w hne [] r hw hr
  simpa [pySplit] using this

theorem pySplit_dropWhile (s : PyStr) :
    pySplit (s.dropWhile pyIsSpace) = pySplit s := by
  induction s with
  | nil => rfl
  | cons c t ih =>
    by_cases hc : pyIsSpace c = true
    · rw [List.dropWhile_cons_of_pos hc, ih, pySplit_ws_head hc]
    · rw [List.dropWhile_cons_of_neg hc]

theorem pySplitGo_all_ws :
    ∀ (t : PyStr), (∀ c ∈ t, pyIsSpace c = true) → ∀ (acc : PyStr),
    pySplitGo acc t = if acc.isEmpty then [] else [acc.reverse] := by
  intro t
  induction t with
  | nil => intro _ acc; rfl
  | cons c t2 ih =>
    intro ht acc
    have hc := ht c (List.mem_cons_self _ _)
    rw [pySplitGo, if_pos hc]
    rw [ih (fun d hd => ht d (List.mem_cons_of_mem _ hd)) []]
    simp

theorem pySplitGo_append_ws :
    ∀ (y : PyStr) (acc t : PyStr), (∀ c ∈ t, pyIsSpace c = true) →
    pySplitGo acc (y ++ t) = pySplitGo acc y := by
  intro y
  induction y with
  | nil =>
    intro acc t ht
    rw [List.nil_append, pySplitGo_all_ws t ht acc]
    rfl
  | cons c y2 ih =>
    intro acc t ht
    show pySplitGo acc (c :: (y2 ++ t)) = pySplitGo acc (c :: y2)
    rw [pySplitGo, pySplitGo]
    by_cases hc : pyIsSpace c = true
    · rw [if_pos hc, if_pos hc, ih [] t ht]
    · rw [if_neg hc, if_neg hc, ih (c :: acc) t ht]

theorem pySplit_stripWs (x : PyStr) : pySplit (pyStripWs x) = pySplit x := by
  have h1 : pySplit (x.dropWhile pyIsSpace) = pySplit x := pySplit_dropWhile x
  have hsplit : x.dropWhile pyIsSpace =
      pyStripWs x ++ ((x.dropWhile pyIsSpace).reverse.takeWhile pyIsSpace).reverse := by
    have h2 := congrArg List.reverse
      (List.takeWhile_append_dropWhile (p := pyIsSpace) (l := (x.dropWhile pyIsSpace).reverse))
    rw [List.reverse_append, List.reverse_reverse] at h2
    exact h2.symm
  rw [← h1, hsplit]
  exact (pySplitGo_append_ws (pyStripWs x) []
    ((x.dropWhile pyIsSpace).reverse.takeWhile pyIsSpace).reverse
    (fun c hc => List.mem_takeWhile_imp (List.mem_reverse.mp hc))).symm

theorem mem_of_head?_some {l : PyStr} {d : Char} (h : l.head? = some d) : d ∈ l := by
  obtain ⟨ys, rfl⟩ := List.head?_eq_some_iff.mp h
  exact List.mem_cons_self _ _

theorem collapseGo_id (p : Char → Bool) (r : Char) :
    ∀ (x : PyStr), (∀ c ∈ x, p c = true → c = r) → noDoubleSep r x = true →
    (collapseRunsGo p [r] false x = x) ∧
    ((∀ c, x.head? = some c → p c = false) → collapseRunsGo p [r] true x = x) := by
  intro x
  induction x with
  | nil => intro _ _; exact ⟨rfl, fun _ => rfl⟩
  | cons c t ih =>
    intro hx hnD
    have iht := ih (fun d hd hp => hx d (List.mem_cons_of_mem _ hd) hp) (noDD_tail hnD)
    by_cases hc : p c = true
    · have hcr : c = r := hx c (List.mem_cons_self _ _) hc
      subst hcr
      have htrue : collapseRunsGo p [c] true t = t := by
        apply iht.2
        intro d hd
        rw [Bool.eq_false_iff]
        intro hpd
        have hdr : d = c := hx d (List.mem_cons_of_mem _ (mem_of_head?_some hd)) hpd
        subst hdr
        obtain ⟨ys, hys⟩ := List.head?_eq_some_iff.mp hd
        rw [hys] at hnD
        exact noDD_pair hnD rfl rfl
      constructor
      · rw [collapseRunsGo, if_pos hc, htrue]
        rfl
      · intro hh
        exact absurd hc (by rw [hh c rfl]; exact Bool.false_ne_true)
    · constructor
      · rw [collapseRunsGo, if_neg hc, iht.1]
      · intro _
        rw [collapseRunsGo, if_neg hc, iht.1]

theorem numSpace_ws_is_space {s : PyStr} (hs : ∀ c ∈ s, pyIsSpace c = false) :
    ∀ c ∈ numSpace s, pyWsRe c = true → c = ' ' := by
  intro c hc hw
  rcases mem_numSpaceGo _ _ hc with rfl | hcs
  · rfl
  · have := hs c hcs
    rw [Bool.eq_false_iff] at this
    exact absurd (by simp [pyIsSpace, hw]) this

theorem numSpace_noDD_space :
    ∀ (s : PyStr), (∀ c ∈ s, pyIsSpace c = false) → ∀ (b : Bool),
    noDoubleSep ' ' (numSpaceGo b s) = true := by
  intro s
  induction s with
  | nil =>
    intro _ b
    cases b <;> rfl
  | cons c t ih =>
    intro hs b
    have hcs := hs c (List.mem_cons_self _ _)
    have hcne : c ≠ ' ' := by
      intro he
      rw [he] at hcs
      exact absurd hcs (by decide)
    have iht := ih (fun d hd => hs d (List.mem_cons_of_mem _ hd))
    by_cases hd : isDigitA c = true
    · have hcore : noDoubleSep ' ' (c :: numSpaceGo true t) = true :=
        noDD_cons_of (iht true) (fun _ _ hc2 _ => hcne hc2)
      rw [numSpaceGo, if_pos hd]
      cases b with
      | true => simpa using hcore
      | false =>
        have hfull : noDoubleSep ' ' (' ' :: c :: numSpaceGo true t) = true :=
          noDD_cons_of hcore (fun d hd2 _ hds => hcne (by
            rcases Option.some_inj.mp hd2 with rfl
            exact hds))
        simpa using hfull
    · have hcore : noDoubleSep ' ' (c :: numSpaceGo false t) = true :=
        noDD_cons_of (iht false) (fun _ _ hc2 _ => hcne hc2)
      rw [numSpaceGo, if_neg hd]
      cases b with
      | true =>
        have hfull : noDoubleSep ' ' (' ' :: c :: numSpaceGo false t) = true :=
          noDD_cons_of hcore (fun d hd2 _ hds => hcne (by
            rcases Option.some_inj.mp hd2 with rfl
            exact hds))
        simpa using hfull
      | false => simpa using hcore

theorem collapseGo_append_nosep (p : Char → Bool) (rep : PyStr) :
    ∀ (w r : PyStr), (∀ c ∈ w, p c = false) →
    collapseRunsGo p rep false (w ++ r) = w ++ collapseRunsGo p rep false r := by
  intro w
  induction w with
  | nil => intro r _; rfl
  | cons c t ih =>
    intro r hw
    have hc := hw c (List.mem_cons_self _ _)
    show collapseRunsGo p rep false (c :: (t ++ r)) = c :: (t ++ collapseRunsGo p rep false r)
    rw [collapseRunsGo, if_neg (by rw [hc]; exact Bool.false_ne_true)]
    rw [ih r (fun d hd => hw d (List.mem_cons_of_mem _ hd))]

theorem collapseGo_word_sep (sep : Char) :
    ∀ (W X : PyStr), noDoubleSep sep W = true → W.getLast? = some sep →
    (collapseRunsGo (fun c => decide (c = sep)) [sep] false (W ++ sep :: X) =
      W ++ collapseRunsGo (fun c => decide (c = sep)) [sep] true X) ∧
    ((∀ c, W.head? = some c → c ≠ sep) →
      collapseRunsGo (fun c => decide (c = sep)) [sep] true (W ++ sep :: X) =
      W ++ collapseRunsGo (fun c => decide (c = sep)) [sep] true X) := by
  intro W
  induction W with
  | nil => intro X _ hl; cases hl
  | cons a W2 ih =>
    intro X hnD hlast
    cases W2 with
    | nil =>
      have ha : a = sep := by simpa using hlast
      constructor
      · rw [ha]
        show collapseRunsGo _ [sep] false (sep :: (sep :: X)) =
          sep :: collapseRunsGo _ [sep] true X
        rw [collapseRunsGo, if_pos (by simp)]
        have h2 : collapseRunsGo (fun c => decide (c = sep)) [sep] true (sep :: X) =
            collapseRunsGo (fun c => decide (c = sep)) [sep] true X := by
          rw [collapseRunsGo, if_pos (by simp)]
          rfl
        rw [h2]
        rfl
      · intro hh
        exact absurd ha (hh a rfl)
    | cons b W3 =>
      have hlast2 : (b :: W3).getLast? = some sep := by
        rw [List.getLast?_cons_cons] at hlast
        exact hlast
      have ihb := ih X (noDD_tail hnD) hlast2
      constructor
      · by_cases ha : a = sep
        · rw [ha]
          show collapseRunsGo _ [sep] false (sep :: ((b :: W3) ++ sep :: X)) =
            sep :: ((b :: W3) ++ collapseRunsGo _ [sep] true X)
          rw [collapseRunsGo, if_pos (by simp)]
          have hb : b ≠ sep := fun hbs => noDD_pair hnD ha hbs
          rw [ihb.2 (fun c hc => by
            rcases Option.some_inj.mp hc with rfl
            exact hb)]
          rfl
        · show collapseRunsGo _ [sep] false (a :: ((b :: W3) ++ sep :: X)) = _
          rw [collapseRunsGo, if_neg (by simp [ha]), ihb.1]
          rfl
      · intro hh
        have ha : a ≠ sep := hh a rfl
        show collapseRunsGo _ [sep] true (a :: ((b :: W3) ++ sep :: X)) = _
        rw [collapseRunsGo, if_neg (by simp [ha]), ihb.1]
        rfl

theorem collapseGo_head (sep : Char) (x : PyStr) :
    (collapseRunsGo (fun c => decide (c = sep)) [sep] false x).head? = x.head? := by
  cases x with
  | nil => rfl
  | cons c t =>
    by_cases hc : c = sep
    · subst hc
      rw [collapseRunsGo, if_pos (by simp)]
      rfl
    · rw [collapseRunsGo, if_neg (by simp [hc])]
      rfl

theorem collapseGo_true_eq_false (sep : Char) (x : PyStr)
    (hh : ∀ c, x.head? = some c → c ≠ sep) :
    collapseRunsGo (fun c => decide (c = sep)) [sep] true x =
      collapseRunsGo (fun c => decide (c = sep)) [sep] false x := by
  cases x with
  | nil => rfl
  | cons c t =>
    have hc := hh c rfl
    rw [collapseRunsGo, if_neg (by simp [hc]), collapseRunsGo, if_neg (by simp [hc])]

/-! ## Canonical slugs: word- and block-level facts -/

theorem digit_not_upper {c : Char} (h : isDigitA c = true) : isUpperA c = false := by
  unfold isDigitA at h
  unfold isUpperA
  rw [Bool.and_eq_true, decide_eq_true_iff, decide_eq_true_iff] at h
  have h65 : ¬(65 ≤ c.toNat) := by omega
  simp [h65]

theorem digit_not_dash {c : Char} (h : isDigitA c = true) : c ≠ '-' := by
  intro he
  rw [he] at h
  exact absurd h (by decide)

theorem stopWords_no_digits : ∀ w ∈ defaultStopWords, w.all isDigitA = false := by decide

theorem stopWords_no_dash : ∀ w ∈ defaultStopWords, ¬('-' ∈ w) := by decide

theorem contains_of_mem {w : PyStr} {c : Char} (h : c ∈ w) : w.contains c = true :=
  List.elem_iff.mpr h

theorem default_stop_words : ({} : SlugGenerator).stop_words = defaultStopWords := rfl

theorem keepWord_eval {w : PyStr} (hne : ¬(w.isEmpty = true))
    (h1 : ¬((decide (w.length = 1) && !pyIsDigitStr w) = true))
    (h2 : ¬((true && decide ((w.map pyLower) ∈ defaultStopWords)) = true))
    (h3 : (pyIsAlnumStr w || w.contains '-' || w.contains '_') = true) :
    keepWord {} true w = true := by
  unfold keepWord
  rw [default_stop_words]
  rw [if_neg hne, if_neg h1, if_neg h2]
  exact h3

theorem keepWord_digits {D : PyStr} (hne : D ≠ []) (hD : ∀ c ∈ D, isDigitA c = true) :
    keepWord {} true D = true := by
  have hdig : pyIsDigitStr D = true := by
    unfold pyIsDigitStr
    rw [List.all_eq_true.mpr hD]
    simp [hne]
  have hlow : D.map pyLower = D := map_pyLower_id (fun c hc => digit_not_upper (hD c hc))
  refine keepWord_eval ?_ ?_ ?_ ?_
  · simp [hne]
  · rw [hdig]
    simp
  · rw [hlow]
    simp only [Bool.true_and, decide_eq_true_iff]
    intro hmem
    have hall := stopWords_no_digits D hmem
    rw [List.all_eq_true.mpr hD] at hall
    simp at hall
  · have halnum : pyIsAlnumStr D = true := by
      unfold pyIsAlnumStr
      rw [List.all_eq_true.mpr (fun c hc => by rw [hD c hc]; simp)]
      simp [hne]
    rw [halnum]
    simp

theorem keepWord_of_dash {w : PyStr} (hlen : 2 ≤ w.length) (hdash : '-' ∈ w)
    (hnu : ∀ c ∈ w, isUpperA c = false) : keepWord {} true w = true := by
  have hne : w ≠ [] := by
    intro he
    rw [he] at hlen
    simp at hlen
  have hlow : w.map pyLower = w := map_pyLower_id hnu
  refine keepWord_eval ?_ ?_ ?_ ?_
  · simp [hne]
  · intro hcond
    rw [Bool.and_eq_true, decide_eq_true_iff] at hcond
    exact absurd hcond.1 (by omega)
  · rw [hlow]
    simp only [Bool.true_and, decide_eq_true_iff]
    intro hmem
    exact stopWords_no_dash w hmem hdash
  · rw [contains_of_mem hdash]
    simp

theorem keepWord_word {w : PyStr} (hne : w ≠ []) (hlen : 2 ≤ w.length)
    (hchars : ∀ c ∈ w, slugChar c = true) (hstop : ¬(w ∈ defaultStopWords)) :
    keepWord {} true w = true := by
  have hlow : w.map pyLower = w :=
    map_pyLower_id (fun c hc => slugChar_not_upper (hchars c hc))
  refine keepWord_eval ?_ ?_ ?_ ?_
  · simp [hne]
  · intro hcond
    rw [Bool.and_eq_true, decide_eq_true_iff] at hcond
    exact absurd hcond.1 (by omega)
  · rw [hlow]
    simp only [Bool.true_and, decide_eq_true_iff]
    exact hstop
  · by_cases hd : '-' ∈ w
    · rw [contains_of_mem hd]
      simp
    · by_cases hu : '_' ∈ w
      · rw [contains_of_mem hu]
        simp
      · have hall : ∀ c ∈ w, (isLowerA c || isUpperA c || isDigitA c) = true := by
          intro c hc
          rcases slugChar_cases (hchars c hc) with h | h | h | h
          · rw [h]; simp
          · rw [h]; simp
          · rw [h] at hc; exact absurd hc hd
          · rw [h] at hc; exact absurd hc hu
        have halnum : pyIsAlnumStr w = true := by
          unfold pyIsAlnumStr
          rw [List.all_eq_true.mpr hall]
          simp [hne]
        rw [halnum]
        simp

theorem slugChar_keep {c : Char} (h : slugChar c = true) : slugKeepChar c = true := by
  unfold slugKeepChar
  rcases slugChar_cases h with h | h | h | h
  · rw [h]; simp
  · rw [h]; simp
  · rw [h]; simp
  · rw [h]; simp

theorem pySplitGo_no_ws :
    ∀ (s acc : PyStr), (∀ c ∈ acc, pyIsSpace c = false) →
    ∀ w ∈ pySplitGo acc s, ∀ c ∈ w, pyIsSpace c = false := by
  intro s
  induction s with
  | nil =>
    intro acc hacc w hw c hc
    unfold pySplitGo at hw
    split at hw
    · cases hw
    · rcases List.mem_singleton.mp hw with rfl
      exact hacc c (List.mem_reverse.mp hc)
  | cons d t ih =>
    intro acc hacc w hw c hc
    by_cases hd : pyIsSpace d = true
    · rw [pySplitGo, if_pos hd] at hw
      rcases List.mem_append.mp hw with hw | hw
      · split at hw
        · cases hw
        · rcases List.mem_singleton.mp hw with rfl
          exact hacc c (List.mem_reverse.mp hc)
      · exact ih [] (fun e he => absurd he (List.not_mem_nil e)) w hw c hc
    · rw [pySplitGo, if_neg hd] at hw
      refine ih (d :: acc) ?_ w hw c hc
      intro e he
      rcases List.mem_cons.mp he with rfl | he
      · exact Bool.eq_false_iff.mpr hd
      · exact hacc e he

theorem pySplit_no_ws {s w : PyStr} (hw : w ∈ pySplit s) : ∀ c ∈ w, pyIsSpace c = false :=
  pySplitGo_no_ws s [] (fun e he => absurd he (List.not_mem_nil e)) w hw

theorem stripChars_id_ends (p : Char → Bool) (s : PyStr)
    (hh : ∀ c, s.head? = some c → p c = false)
    (hl : ∀ c, s.getLast? = some c → p c = false) :
    stripChars p s = s := by
  have h1 : s.dropWhile p = s := by
    cases s with
    | nil => rfl
    | cons c t =>
      exact List.dropWhile_cons_of_neg (by rw [hh c rfl]; exact Bool.false_ne_true)
  have h2 : s.reverse.dropWhile p = s.reverse := by
    cases hr : s.reverse with
    | nil => rfl
    | cons c t =>
      have hc : s.getLast? = some c := by
        rw [← List.head?_reverse, hr]
        rfl
      exact List.dropWhile_cons_of_neg (by rw [hl c hc]; exact Bool.false_ne_true)
  unfold stripChars
  rw [h1, h2, List.reverse_reverse]

theorem getLast?_append_ne {u v : PyStr} (hv : v ≠ []) :
    (u ++ v).getLast? = v.getLast? := by
  rw [List.getLast?_append]
  obtain ⟨z, hz⟩ : ∃ z, v.getLast? = some z := by
    cases hve : v.getLast? with
    | none => exact absurd (List.getLast?_eq_none_iff.mp hve) hv
    | some z => exact ⟨z, rfl⟩
  rw [hz]
  rfl

theorem adjOK_tail {a : Char} {l : PyStr} (h : adjOK (a :: l) = true) : adjOK l = true := by
  cases l with
  | nil => rfl
  | cons b t =>
    unfold adjOK at h
    rw [Bool.and_eq_true] at h
    exact h.2

theorem adjOK_append_right : ∀ {t l : PyStr}, adjOK (t ++ l) = true → adjOK l = true := by
  intro t
  induction t with
  | nil => intro l h; exact h
  | cons a t ih => intro l h; exact ih (adjOK_tail h)

theorem adjOK_boundary :
    ∀ (u : PyStr) {v : PyStr} {z r : Char}, adjOK (u ++ v) = true →
    u.getLast? = some z → v.head? = some r → adjPair z r = true := by
  intro u
  induction u with
  | nil => intro v z r _ hz _; cases hz
  | cons a u2 ih =>
    intro v z r h hz hr
    cases u2 with
    | nil =>
      have haz : a = z := by simpa using hz
      obtain ⟨v2, rfl⟩ := List.head?_eq_some_iff.mp hr
      rw [← haz]
      have h2 : adjOK (a :: r :: v2) = true := h
      unfold adjOK at h2
      rw [Bool.and_eq_true] at h2
      exact h2.1
    | cons b u3 =>
      have h2 : adjOK ((b :: u3) ++ v) = true := adjOK_tail h
      have hz2 : (b :: u3).getLast? = some z := by
        rw [List.getLast?_cons_cons] at hz
        exact hz
      exact ih h2 hz2 hr

theorem adjPair_digit_left {z r : Char} (h : adjPair z r = true) (hz : isDigitA z = true)
    (hr : isDigitA r = false) : r = '-' := by
  unfold adjPair at h
  rw [Bool.and_eq_true] at h
  have h1 := h.1
  rw [hz, hr] at h1
  simpa using h1

theorem adjPair_digit_right {z r : Char} (h : adjPair z r = true) (hr : isDigitA r = true)
    (hz : isDigitA z = false) : z = '-' := by
  unfold adjPair at h
  rw [Bool.and_eq_true] at h
  have h2 := h.2
  rw [hz, hr] at h2
  simpa using h2

theorem joinSep_cons (sep : Char) (w : PyStr) {ws : List PyStr} (h : ws ≠ []) :
    joinSep sep (w :: ws) = w ++ sep :: joinSep sep ws := by
  cases ws with
  | nil => exact absurd rfl h
  | cons w2 ws2 => rfl

theorem collapse_id_noDD {x : PyStr} (h : noDoubleSep '-' x = true) : collapseSep x = x :=
  (collapseGo_id (fun c => decide (c = '-')) '-' x
    (fun _ _ hp => of_decide_eq_true hp) h).1

theorem collapseSep_dash_cons (X : PyStr) :
    collapseSep ('-' :: X) = '-' :: collapseRunsGo (fun c => decide (c = '-')) ['-'] true X := by
  unfold collapseSep
  rw [collapseRunsGo, if_pos (by simp)]
  rfl

theorem collapseSep_dash_cons_true (X : PyStr) :
    collapseRunsGo (fun c => decide (c = '-')) ['-'] true ('-' :: X) =
      collapseRunsGo (fun c => decide (c = '-')) ['-'] true X := by
  rw [collapseRunsGo, if_pos (by simp)]
  rfl

theorem numSpaceGo_head_digit {d : Char} (hd : isDigitA d = true) (t : PyStr) :
    numSpaceGo false (d :: t) = ' ' :: d :: numSpaceGo true t := by
  rw [numSpaceGo, if_pos hd]
  rfl

theorem numSpaceGo_head_nondigit {d : Char} (hd : isDigitA d = false) (t : PyStr) :
    numSpaceGo false (d :: t) = d :: numSpaceGo false t := by
  rw [numSpaceGo, if_neg (by rw [hd]; exact Bool.false_ne_true)]
  rfl

theorem clean_text_slug {s : PyStr} (hne : s ≠ []) (hchars : ∀ c ∈ s, slugChar c = true) :
    clean_text s = pyStripWs (numSpace s) := by
  unfold clean_text
  rw [if_neg hne]
  dsimp only
  rw [map_pyLower_id (fun c hc => slugChar_not_upper (hchars c hc))]
  rw [remove_accents_id]
  rw [subChars_id (fun c hc => slugChar_notin_and (hchars c hc))]
  rw [subChars_id (fun c hc => slugChar_notin_punct (hchars c hc))]
  rw [subChars_id (fun c hc => slugChar_notin_slash (hchars c hc))]
  rw [camelSplit_id (fun c hc => slugChar_not_upper (hchars c hc))]
  have hrep : pstr " " = [' '] := rfl
  rw [hrep]
  have hsp : ∀ c ∈ s, pyIsSpace c = false := fun c hc => slugChar_not_space (hchars c hc)
  have hcoll : collapseRuns pyWsRe [' '] (numSpace s) = numSpace s :=
    (collapseGo_id pyWsRe ' ' (numSpace s) (numSpace_ws_is_space hsp)
      (numSpace_noDD_space s hsp false)).1
  rw [hcoll]

theorem split_clean_slug {s : PyStr} (hne : s ≠ []) (hchars : ∀ c ∈ s, slugChar c = true) :
    pySplit (clean_text s) = pySplit (numSpace s) := by
  rw [clean_text_slug hne hchars, pySplit_stripWs]

theorem stripJunk_id_round {s : PyStr} (hchars : ∀ c ∈ s, slugChar c = true)
    {L : List PyStr} (hL : ∀ w ∈ L, w ∈ pySplit (numSpace s)) :
    stripJunk (joinSep '-' L) = joinSep '-' L := by
  unfold stripJunk
  rw [List.filter_eq_self]
  intro c hc
  rcases mem_joinSep hc with rfl | ⟨w, hw, hcw⟩
  · decide
  · have hwmem := hL w hw
    have hcs : c ∈ numSpace s := mem_pySplit hwmem hcw
    rcases mem_numSpaceGo _ _ hcs with rfl | hcs2
    · exact absurd (pySplit_no_ws hwmem _ hcw) (by decide)
    · exact slugChar_keep (hchars c hcs2)

theorem collapseGo_dash_cons (X : PyStr) :
    collapseRunsGo (fun c => decide (c = '-')) ['-'] false ('-' :: X) =
      '-' :: collapseRunsGo (fun c => decide (c = '-')) ['-'] true X :=
  collapseSep_dash_cons X

theorem coreA (n : Nat)
    (ih : ∀ s2 : PyStr, s2.length ≤ n → canonCore s2 → slugRound s2 = s2)
    (D rest : PyStr) (hDne : D ≠ []) (hDdig : ∀ c ∈ D, isDigitA c = true)
    (hrhead : ∀ d, rest.head? = some d → isDigitA d = false)
    (hlen : (D ++ rest).length ≤ n + 1)
    (hcc : canonCore (D ++ rest)) :
    slugRound (D ++ rest) = D ++ rest := by
  obtain ⟨hne, hchars, hnDD, hadj, hlast, hH5, hH6⟩ := hcc
  have hDlen : 0 < D.length := List.length_pos.mpr hDne
  have hDws : ∀ c ∈ D, pyIsSpace c = false :=
    fun c hc => slugChar_not_space (digit_slugChar (hDdig c hc))
  have keepD : keepWord {} true D = true := keepWord_digits hDne hDdig
  have hwords : pySplit (numSpace (D ++ rest)) = D :: pySplit (numSpaceGo false rest) := by
    show pySplit (numSpaceGo false (D ++ rest)) = _
    rw [numSpaceGo_digits hDne hDdig rest hrhead]
    rw [pySplit_ws_head (by decide)]
    rw [pySplit_chunk D (' ' :: numSpaceGo false rest) hDne hDws
      (fun d hd => by rcases Option.some_inj.mp hd with rfl; decide)]
    rw [pySplit_ws_head (by decide)]
  cases rest with
  | nil =>
    rw [List.append_nil] at hnDD ⊢
    rw [List.append_nil] at hwords
    have hsplit0 : pySplit (numSpaceGo false ([] : PyStr)) = [] := rfl
    rw [hsplit0] at hwords
    show collapseSep (joinSep '-' ((pySplit (numSpace D)).filter (keepWord {} true))) = D
    rw [hwords]
    rw [List.filter_cons_of_pos keepD]
    exact collapse_id_noDD hnDD
  | cons r0 rest1 =>
    have hr0 : isDigitA r0 = false := hrhead r0 rfl
    obtain ⟨z, hz⟩ : ∃ z, D.getLast? = some z := by
      cases hve : D.getLast? with
      | none => exact absurd (List.getLast?_eq_none_iff.mp hve) hDne
      | some z => exact ⟨z, rfl⟩
    have hzdig : isDigitA z = true := hDdig z (List.mem_of_getLast?_eq_some hz)
    have hadjp : adjPair z r0 = true := adjOK_boundary D hadj hz rfl
    have hr0dash : r0 = '-' := adjPair_digit_left hadjp hzdig hr0
    subst hr0dash
    cases rest1 with
    | nil =>
      exact absurd (List.getLast?_concat D) hlast
    | cons d2 rest2 =>
      have hnDDr : noDoubleSep '-' ('-' :: d2 :: rest2) = true := noDD_append_right hnDD
      have hd2ne : d2 ≠ '-' := fun he => noDD_pair hnDDr rfl he
      have hlast2 : (d2 :: rest2).getLast? ≠ some '-' := by
        intro he
        apply hlast
        rw [getLast?_append_ne (List.cons_ne_nil _ _), List.getLast?_cons_cons]
        exact he
      have hchars2 : ∀ c ∈ d2 :: rest2, slugChar c = true := by
        intro c hc
        exact hchars c (List.mem_append_right D (List.mem_cons_of_mem _ hc))
      by_cases hd2 : isDigitA d2 = true
      · have hlen2 : (d2 :: rest2).length ≤ n := by
          rw [List.length_append] at hlen
          simp only [List.length_cons] at hlen ⊢
          omega
        have hIH := ih (d2 :: rest2) hlen2
          ⟨List.cons_ne_nil _ _, hchars2, noDD_tail hnDDr,
           adjOK_tail (adjOK_append_right hadj), hlast2,
           fun hh => absurd (Option.some_inj.mp hh) hd2ne,
           fun hall => by rw [List.all_cons, hd2] at hall; simp at hall⟩
        have hw2 : pySplit (numSpaceGo false ('-' :: d2 :: rest2)) =
            ['-'] :: pySplit (numSpaceGo false (d2 :: rest2)) := by
          rw [numSpaceGo_head_nondigit (by decide)]
          exact pySplit_chunk ['-'] (numSpaceGo false (d2 :: rest2))
            (List.cons_ne_nil _ _)
            (fun c hc => by rcases List.mem_singleton.mp hc with rfl; decide)
            (fun d hd => by
              rw [numSpaceGo_head_digit hd2] at hd
              rcases Option.some_inj.mp hd with rfl
              decide)
        have hL1ne :
            (pySplit (numSpaceGo false (d2 :: rest2))).filter (keepWord {} true) ≠ [] := by
          intro he
          have h0 : slugRound (d2 :: rest2) = [] := by
            show collapseSep (joinSep '-'
              ((pySplit (numSpaceGo false (d2 :: rest2))).filter (keepWord {} true))) = []
            rw [he]
            rfl
          rw [hIH] at h0
          cases h0
        have hheadJ : (joinSep '-'
            ((pySplit (numSpaceGo false (d2 :: rest2))).filter (keepWord {} true))).head? =
              some d2 := by
          rw [← collapseGo_head '-']
          show (slugRound (d2 :: rest2)).head? = some d2
          rw [hIH]
          rfl
        have hheadne : ∀ c, (joinSep '-'
            ((pySplit (numSpaceGo false (d2 :: rest2))).filter (keepWord {} true))).head? =
              some c → c ≠ '-' := by
          intro c hc
          rw [hheadJ] at hc
          rcases Option.some_inj.mp hc with rfl
          exact hd2ne
        have hIH2 : collapseRunsGo (fun c => decide (c = '-')) ['-'] false
            (joinSep '-' ((pySplit (numSpaceGo false (d2 :: rest2))).filter
              (keepWord {} true))) = d2 :: rest2 := hIH
        show collapseSep (joinSep '-'
          ((pySplit (numSpace (D ++ '-' :: d2 :: rest2))).filter (keepWord {} true))) =
            D ++ '-' :: d2 :: rest2
        rw [hwords, hw2]
        rw [List.filter_cons_of_pos keepD, List.filter_cons_of_neg (by decide)]
        rw [joinSep_cons '-' D hL1ne]
        unfold collapseSep
        rw [collapseGo_append_nosep (fun c => decide (c = '-')) ['-'] D _
          (fun c hc => decide_eq_false (digit_not_dash (hDdig c hc)))]
        rw [collapseGo_dash_cons]
        rw [collapseGo_true_eq_false '-' _ hheadne]
        rw [hIH2]
      · have hd2' : isDigitA d2 = false := Bool.eq_false_iff.mpr hd2
        have hlenR : ('-' :: d2 :: rest2).length ≤ n := by
          rw [List.length_append] at hlen
          simp only [List.length_cons] at hlen ⊢
          omega
        have hccR : canonCore ('-' :: d2 :: rest2) := by
          refine ⟨List.cons_ne_nil _ _, ?_, hnDDr, adjOK_append_right hadj, ?_, ?_, ?_⟩
          · intro c hc
            exact hchars c (List.mem_append_right D hc)
          · rw [show ('-' :: d2 :: rest2).getLast? = (d2 :: rest2).getLast? from
              List.getLast?_cons_cons]
            exact hlast2
          · intro _ c2 hc2
            rcases Option.some_inj.mp hc2 with rfl
            exact hd2'
          · intro _
            refine keepWord_of_dash ?_ (List.mem_cons_self _ _) ?_
            · simp only [List.length_cons]
              omega
            · intro c hc
              exact slugChar_not_upper (hchars c (List.mem_append_right D hc))
        have hIH := ih ('-' :: d2 :: rest2) hlenR hccR
        have hL2ne :
            (pySplit (numSpaceGo false ('-' :: d2 :: rest2))).filter (keepWord {} true) ≠ [] := by
          intro he
          have h0 : slugRound ('-' :: d2 :: rest2) = [] := by
            show collapseSep (joinSep '-'
              ((pySplit (numSpaceGo false ('-' :: d2 :: rest2))).filter (keepWord {} true))) = []
            rw [he]
            rfl
          rw [hIH] at h0
          cases h0
        have hheadJ : (joinSep '-'
            ((pySplit (numSpaceGo false ('-' :: d2 :: rest2))).filter (keepWord {} true))).head? =
              some '-' := by
          rw [← collapseGo_head '-']
          show (slugRound ('-' :: d2 :: rest2)).head? = some '-'
          rw [hIH]
          rfl
        obtain ⟨J2, hJ2⟩ := List.head?_eq_some_iff.mp hheadJ
        have hIH2 : collapseRunsGo (fun c => decide (c = '-')) ['-'] false
            (joinSep '-' ((pySplit (numSpaceGo false ('-' :: d2 :: rest2))).filter
              (keepWord {} true))) = '-' :: d2 :: rest2 := hIH
        rw [hJ2, collapseGo_dash_cons] at hIH2
        injection hIH2 with hIH2a hIH3
        show collapseSep (joinSep '-'
          ((pySplit (numSpace (D ++ '-' :: d2 :: rest2))).filter (keepWord {} true))) =
            D ++ '-' :: d2 :: rest2
        rw [hwords]
        rw [List.filter_cons_of_pos keepD]
        rw [joinSep_cons '-' D hL2ne]
        unfold collapseSep
        rw [collapseGo_append_nosep (fun c => decide (c = '-')) ['-'] D _
          (fun c hc => decide_eq_false (digit_not_dash (hDdig c hc)))]
        rw [collapseGo_dash_cons]
        rw [hJ2, collapseSep_dash_cons_true]
        rw [hIH3]

theorem coreB (n : Nat)
    (ih : ∀ s2 : PyStr, s2.length ≤ n → canonCore s2 → slugRound s2 = s2)
    (W rest : PyStr) (hWne : W ≠ []) (hWnd : ∀ c ∈ W, isDigitA c = false)
    (hrhead : ∀ d, rest.head? = some d → isDigitA d = true)
    (hlen : (W ++ rest).length ≤ n + 1)
    (hcc : canonCore (W ++ rest)) :
    slugRound (W ++ rest) = W ++ rest := by
  obtain ⟨hne, hchars, hnDD, hadj, hlast, hH5, hH6⟩ := hcc
  have hWlen0 : 0 < W.length := List.length_pos.mpr hWne
  have hWchars : ∀ c ∈ W, slugChar c = true := fun c hc => hchars c (List.mem_append_left _ hc)
  have hWws : ∀ c ∈ W, pyIsSpace c = false := fun c hc => slugChar_not_space (hWchars c hc)
  have hnum : numSpace (W ++ rest) = W ++ numSpaceGo false rest := numSpaceGo_nondigit hWnd rest
  cases rest with
  | nil =>
    rw [List.append_nil] at hnDD hH6 ⊢
    have hall : W.all (fun c => !isDigitA c) = true :=
      List.all_eq_true.mpr (fun c hc => by rw [hWnd c hc]; rfl)
    have keepW : keepWord {} true W = true := hH6 hall
    have hnumW : numSpace W = W := by
      have h := hnum
      rw [List.append_nil] at h
      rw [show numSpaceGo false ([] : PyStr) = [] from rfl, List.append_nil] at h
      exact h
    have hsplitW : pySplit W = [W] := by
      have h := pySplit_chunk W [] hWne hWws (fun d hd => Option.noConfusion hd)
      rw [List.append_nil] at h
      exact h
    show collapseSep (joinSep '-' ((pySplit (numSpace W)).filter (keepWord {} true))) = W
    rw [hnumW, hsplitW]
    rw [List.filter_cons_of_pos keepW]
    exact collapse_id_noDD hnDD
  | cons r0 rest1 =>
    have hr0 : isDigitA r0 = true := hrhead r0 rfl
    obtain ⟨z, hz⟩ : ∃ z, W.getLast? = some z := by
      cases hve : W.getLast? with
      | none => exact absurd (List.getLast?_eq_none_iff.mp hve) hWne
      | some z => exact ⟨z, rfl⟩
    have hznd : isDigitA z = false := hWnd z (List.mem_of_getLast?_eq_some hz)
    have hadjp : adjPair z r0 = true := adjOK_boundary W hadj hz rfl
    have hzdash : z = '-' := adjPair_digit_right hadjp hr0 hznd
    subst hzdash
    have hWnotdash : W ≠ ['-'] := by
      intro he
      have h5 := hH5 (by rw [he]; rfl) r0 (by rw [he]; rfl)
      rw [h5] at hr0
      exact Bool.false_ne_true hr0
    have hWlen2 : 2 ≤ W.length := by
      cases W with
      | nil => exact absurd rfl hWne
      | cons a W2 =>
        cases W2 with
        | nil =>
          have ha : a = '-' := by simpa using hz
          exact absurd (by rw [ha]) hWnotdash
        | cons b W3 =>
          simp only [List.length_cons]
          omega
    have hkeepW : keepWord {} true W = true :=
      keepWord_of_dash hWlen2 (List.mem_of_getLast?_eq_some hz)
        (fun c hc => slugChar_not_upper (hWchars c hc))
    have hwords : pySplit (numSpace (W ++ r0 :: rest1)) =
        W :: pySplit (numSpaceGo false (r0 :: rest1)) := by
      rw [hnum]
      exact pySplit_chunk W (numSpaceGo false (r0 :: rest1)) hWne hWws
        (fun d hd => by
          rw [numSpaceGo_head_digit hr0] at hd
          rcases Option.some_inj.mp hd with rfl
          decide)
    have hlenR : (r0 :: rest1).length ≤ n := by
      rw [List.length_append] at hlen
      simp only [List.length_cons] at hlen ⊢
      omega
    have hccR : canonCore (r0 :: rest1) := by
      refine ⟨List.cons_ne_nil _ _, ?_, noDD_append_right hnDD, adjOK_append_right hadj,
        ?_, ?_, ?_⟩
      · intro c hc
        exact hchars c (List.mem_append_right W hc)
      · intro he
        apply hlast
        rw [getLast?_append_ne (List.cons_ne_nil _ _)]
        exact he
      · intro hh
        have hr0d : r0 = '-' := Option.some_inj.mp hh
        rw [hr0d] at hr0
        exact absurd hr0 (by decide)
      · intro hall
        rw [List.all_cons, hr0] at hall
        simp at hall
    have hIH := ih (r0 :: rest1) hlenR hccR
    have hL3ne : (pySplit (numSpaceGo false (r0 :: rest1))).filter (keepWord {} true) ≠ [] := by
      intro he
      have h0 : slugRound (r0 :: rest1) = [] := by
        show collapseSep (joinSep '-'
          ((pySplit (numSpaceGo false (r0 :: rest1))).filter (keepWord {} true))) = []
        rw [he]
        rfl
      rw [hIH] at h0
      cases h0
    have hheadJ : (joinSep '-'
        ((pySplit (numSpaceGo false (r0 :: rest1))).filter (keepWord {} true))).head? =
          some r0 := by
      rw [← collapseGo_head '-']
      show (slugRound (r0 :: rest1)).head? = some r0
      rw [hIH]
      rfl
    have hheadne : ∀ c, (joinSep '-'
        ((pySplit (numSpaceGo false (r0 :: rest1))).filter (keepWord {} true))).head? =
          some c → c ≠ '-' := by
      intro c hc
      rw [hheadJ] at hc
      rcases Option.some_inj.mp hc with rfl
      exact digit_not_dash hr0
    have hIH2 : collapseRunsGo (fun c => decide (c = '-')) ['-'] false
        (joinSep '-' ((pySplit (numSpaceGo false (r0 :: rest1))).filter
          (keepWord {} true))) = r0 :: rest1 := hIH
    show collapseSep (joinSep '-'
      ((pySplit (numSpace (W ++ r0 :: rest1))).filter (keepWord {} true))) = W ++ r0 :: rest1
    rw [hwords]
    rw [List.filter_cons_of_pos hkeepW]
    rw [joinSep_cons '-' W hL3ne]
    unfold collapseSep
    rw [(collapseGo_word_sep '-' W _ (noDD_append_left hnDD) hz).1]
    rw [collapseGo_true_eq_false '-' _ hheadne]
    rw [hIH2]

theorem coreJC : ∀ (n : Nat) (s : PyStr), s.length ≤ n → canonCore s → slugRound s = s := by
  intro n
  induction n with
  | zero =>
    intro s hlen hcc
    exact absurd (List.length_eq_zero.mp (Nat.le_zero.mp hlen)) hcc.1
  | succ n ih =>
    intro s hlen hcc
    obtain ⟨hne, hchars, hnDD, hadj, hlast, hH5, hH6⟩ := hcc
    cases s with
    | nil => exact absurd rfl hne
    | cons c0 t0 =>
      by_cases hc0 : isDigitA c0 = true
      · have hsplit : c0 :: t0 = (c0 :: t0.takeWhile isDigitA) ++ t0.dropWhile isDigitA := by
          rw [List.cons_append, List.takeWhile_append_dropWhile]
        rw [hsplit] at hlen ⊢
        refine coreA n ih (c0 :: t0.takeWhile isDigitA) (t0.dropWhile isDigitA)
          (List.cons_ne_nil _ _) ?_ (fun d hd => dropWhile_head_not hd) hlen ?_
        · intro c hc
          rcases List.mem_cons.mp hc with rfl | hc
          · exact hc0
          · exact List.mem_takeWhile_imp hc
        · rw [← hsplit]
          exact ⟨hne, hchars, hnDD, hadj, hlast, hH5, hH6⟩
      · have hc0' : isDigitA c0 = false := Bool.eq_false_iff.mpr hc0
        have hsplit : c0 :: t0 =
            (c0 :: t0.takeWhile (fun c => !isDigitA c)) ++
              t0.dropWhile (fun c => !isDigitA c) := by
          rw [List.cons_append, List.takeWhile_append_dropWhile]
        rw [hsplit] at hlen ⊢
        refine coreB n ih (c0 :: t0.takeWhile (fun c => !isDigitA c))
          (t0.dropWhile (fun c => !isDigitA c)) (List.cons_ne_nil _ _) ?_ ?_ hlen ?_
        · intro c hc
          rcases List.mem_cons.mp hc with rfl | hc
          · exact hc0'
          · have h := List.mem_takeWhile_imp hc
            simpa using h
        · intro d hd
          have h := dropWhile_head_not hd
          simpa using h
        · rw [← hsplit]
          exact ⟨hne, hchars, hnDD, hadj, hlast, hH5, hH6⟩

theorem canonical_parts {s : PyStr} (h : canonicalSlug s = true) :
    s ≠ [] ∧ s.length ≤ 50 ∧ (∀ c ∈ s, slugChar c = true) ∧
      s.head? ≠ some '-' ∧ s.getLast? ≠ some '-' ∧
      noDoubleSep '-' s = true ∧ adjOK s = true ∧ wordsOK s = true := by
  unfold canonicalSlug at h
  simp only [Bool.and_eq_true] at h
  obtain ⟨⟨⟨⟨⟨⟨⟨h1, h2⟩, h3⟩, h4⟩, h5⟩, h6⟩, h7⟩, h8⟩ := h
  refine ⟨?_, of_decide_eq_true h2, List.all_eq_true.mp h3, ?_, ?_, h6, h7, h8⟩
  · simpa using h1
  · simpa using h4
  · simpa using h5

theorem finalSlug_canonical {s : PyStr} (hchars : ∀ c ∈ s, slugChar c = true)
    (hlen : s.length ≤ 50) (hhead : s.head? ≠ some '-') (hlast : s.getLast? ≠ some '-')
    (hcore : slugRound s = s) :
    finalSlug {} ((pySplit (numSpace s)).filter (keepWord {} true)) = s := by
  have hjunk : stripJunk (joinSep '-' ((pySplit (numSpace s)).filter (keepWord {} true))) =
      joinSep '-' ((pySplit (numSpace s)).filter (keepWord {} true)) :=
    stripJunk_id_round hchars (fun w hw => List.mem_of_mem_filter hw)
  have hstripSep : ∀ (x : PyStr), x.head? ≠ some '-' → x.getLast? ≠ some '-' →
      stripChars (fun c => decide (c = '-')) x = x := by
    intro x hh hl
    refine stripChars_id_ends _ x ?_ ?_
    · intro c hc
      apply decide_eq_false
      intro he
      rw [he] at hc
      exact hh hc
    · intro c hc
      apply decide_eq_false
      intro he
      rw [he] at hc
      exact hl hc
  show stripChars (fun c => decide (c = '-'))
      (SlugGenerator.truncate_slug {} (stripChars (fun c => decide (c = '-'))
        (collapseRuns (fun c => decide (c = '-')) ['-']
          (stripJunk (joinSep '-' ((pySplit (numSpace s)).filter (keepWord {} true))))))) = s
  rw [hjunk]
  have hcoll : collapseRuns (fun c => decide (c = '-')) ['-']
      (joinSep '-' ((pySplit (numSpace s)).filter (keepWord {} true))) = s := hcore
  rw [hcoll]
  rw [hstripSep s hhead hlast]
  have htrunc : SlugGenerator.truncate_slug {} s = s := by
    unfold SlugGenerator.truncate_slug
    have hml : s.length ≤ ({} : SlugGenerator).max_length := hlen
    rw [if_pos hml]
  rw [htrunc]
  exact hstripSep s hhead hlast

theorem canonical_fixed {s : PyStr} (h : canonicalSlug s = true) :
    SlugGenerator.generate_slug {} s = s := by
  obtain ⟨hne, hlen, hchars, hhead, hlast, hnDD, hadj, hwOK⟩ := canonical_parts h
  have hcc : canonCore s := by
    refine ⟨hne, hchars, hnDD, hadj, hlast, fun hh => absurd hh hhead, fun hall => ?_⟩
    unfold wordsOK at hwOK
    rw [if_pos hall] at hwOK
    rw [Bool.and_eq_true] at hwOK
    have hlen2 : 2 ≤ s.length := of_decide_eq_true hwOK.1
    have hstop : ¬(s ∈ defaultStopWords) := by simpa using hwOK.2
    exact keepWord_word hne hlen2 hchars hstop
  have hcore : slugRound s = s := coreJC s.length s le_rfl hcc
  have hstrip : pyStripWs s = s :=
    stripChars_id pyIsSpace s (fun c hc => slugChar_not_space (hchars c hc))
  have hw : slugWords {} (preparedText s []) true =
      (pySplit (numSpace s)).filter (keepWord {} true) := by
    show ({} : SlugGenerator).filter_words (pySplit (clean_text s)) true = _
    rw [split_clean_slug hne hchars]
    rfl
  have hFne : (pySplit (numSpace s)).filter (keepWord {} true) ≠ [] := by
    intro he
    have h0 : slugRound s = [] := by
      show collapseSep (joinSep '-' ((pySplit (numSpace s)).filter (keepWord {} true))) = []
      rw [he]
      rfl
    rw [hcore] at h0
    exact hne h0
  have hF : finalSlug {} ((pySplit (numSpace s)).filter (keepWord {} true)) = s :=
    finalSlug_canonical hchars hlen hhead hlast hcore
  unfold SlugGenerator.generate_slug
  rw [if_neg (by
    rintro (he | he)
    · exact hne he
    · rw [hstrip] at he
      exact hne he)]
  dsimp only
  rw [hw]
  rw [if_neg hFne]
  rw [hF]
  rw [if_neg hne]

/-- C6, counterexample: idempotence fails for the title `"a-"`.  Its slug
is `"a"` (the word `a-` is kept because it contains a hyphen, and the
trailing separator is stripped afterwards), but re-slugging `"a"` drops
the single-character word and yields the sentinel `"untitled"`. -/
theorem c6_counterexample :
    SlugGenerator.generate_slug {} (SlugGenerator.generate_slug {} (pstr "a-")) ≠
      SlugGenerator.generate_slug {} (pstr "a-") := by
  decide

/-- C6, amended: `generate_slug` under the default configuration is
idempotent at every title whose slug comes out in canonical form —
non-empty over `[a-z0-9_-]`, within the length bound, no leading,
trailing or doubled separator, digit runs delimited by separators, and,
when digit-free, a single keepable word.  On canonical slugs the whole
pipeline is the identity, so feeding the output back reproduces it. -/
theorem c6_amended (title : PyStr)
    (h : canonicalSlug (SlugGenerator.generate_slug {} title) = true) :
    SlugGenerator.generate_slug {} (SlugGenerator.generate_slug {} title) =
      SlugGenerator.generate_slug {} title :=
  canonical_fixed h

/-- C6, witness: the slug of `"Hello World!"` is canonical, and re-slugging
it reproduces it. -/
theorem c6_witness :
    canonicalSlug (SlugGenerator.generate_slug {} (pstr "Hello World!")) = true ∧
      SlugGenerator.generate_slug {} (SlugGenerator.generate_slug {} (pstr "Hello World!")) =
        SlugGenerator.generate_slug {} (pstr "Hello World!") :=
  ⟨by decide, c6_amended (pstr "Hello World!") (by decide)⟩

end Snippets
